import Mathlib

/-!
Verification of the LifeRoute routing engine (js/routing.js, with floor data
from js/data.js and global state conventions from js/main.js).

The routing code operates on:
  - a floor definition (rooms, exits, weighted bidirectional edges); the
    routing layer only ever uses the node id fields of the objects returned
    by computeCoords, which preserves ids and their order, so floors are
    embedded as lists of ids plus the edge list;
  - a hazard snapshot: a plain JS object mapping node id to a hazard string;
    embedded as an association list with JS-object lookup semantics;
  - distance values: finite numbers or Infinity; embedded as Option Nat with
    none standing for Infinity.

State threaded through globals in the source (floor, pos, haz) is passed
explicitly as parameters here, exactly as the functions read it.
-/

/-- Hazard snapshot: a JS object mapping node id to hazard kind string. -/
abbrev Snap := List (String × String)

/-- Association-list lookup with JS-object key semantics (first match). -/
def lookE {α : Type} : List (String × α) → String → Option α
  | [], _ => none
  | (k, v) :: t, k' => if k = k' then some v else lookE t k'

/-- Association-list assignment, observationally the JS property write
obj[k] = v: subsequent lookups of k see v, other keys are untouched. -/
def setE {α : Type} (m : List (String × α)) (k : String) (v : α) : List (String × α) :=
  (k, v) :: m.filter (fun p => decide (p.1 ≠ k))

/-- Association-list key removal, observationally the JS delete obj[k]. -/
def delE {α : Type} (m : List (String × α)) (k : String) : List (String × α) :=
  m.filter (fun p => decide (p.1 ≠ k))

/-- Hazard types that make a node completely impassable (routing.js line 27). -/
def ROOM_HAZARD_TYPES : List String := ["fire", "smoke", "blocked", "closed"]

/-- Reading a key from a hazard object: hazSnap[id] with a missing key
collapsed to the empty string, as in the idiom (hazSnap[id] || ''). -/
def snapGet (snap : Snap) (id : String) : String :=
  (lookE snap id).getD ""

/-- nodeIsHazardous (routing.js lines 60-62). -/
def nodeIsHazardous (id : String) (snap : Snap) : Bool :=
  ROOM_HAZARD_TYPES.contains (snapGet snap id)

/-- getHaz (routing.js lines 30-32): (haz[floor] || {})[id] || ''.
The globals haz and floor are passed explicitly. -/
def getHaz (haz : List (String × Snap)) (floor id : String) : String :=
  snapGet ((lookE haz floor).getD []) id

/-- setHaz (routing.js lines 34-41): a truthy value is recorded, a falsy value
(for strings: only the empty string) deletes the entry. The creation of the
missing per-floor object (if (!haz[floor]) haz[floor] = {}) is the getD []. -/
def setHaz (haz : List (String × Snap)) (floor id val : String) : List (String × Snap) :=
  if val = "" then setE haz floor (delE ((lookE haz floor).getD []) id)
  else setE haz floor (setE ((lookE haz floor).getD []) id val)

/-- Floor definition: room ids, exit ids (in declared order) and edges
(a, b, w). computeCoords (data.js lines 49-62) only adds pixel coordinates
and preserves ids and their order, so it contributes nothing here. -/
structure FloorDef where
  rooms : List String
  exits : List String
  edges : List (String × String × Nat)

/-- Node ids of a floor in the order the source enumerates them
([...rooms, ...exits], routing.js lines 79 and 108). -/
def allIds (fd : FloorDef) : List String :=
  fd.rooms ++ fd.exits

/-- Single push adj[k].push(e). On a missing key the source throws a
TypeError (adj[k] is undefined), which cannot happen for floors satisfying
the documented invariant that every edge endpoint is a declared node; the
embedding leaves the map unchanged in that unreachable case. -/
def pushAdj (adj : List (String × List (String × Nat))) (k : String) (e : String × Nat) :
    List (String × List (String × Nat)) :=
  match lookE adj k with
  | none => adj
  | some l => setE adj k (l ++ [e])

/-- Initial adjacency map: every declared node id mapped to an empty list
(routing.js lines 79-81). -/
def initAdj (fd : FloorDef) : List (String × List (String × Nat)) :=
  (allIds fd).foldl (fun m id => setE m id []) []

/-- Processing of a single edge (a, b, w) of the buildAdjacency fold
(routing.js lines 83-88): the edge is dropped when either endpoint is
hazardous, otherwise both directed entries are pushed. -/
def addEdge (snap : Snap) (adj : List (String × List (String × Nat)))
    (e : String × String × Nat) : List (String × List (String × Nat)) :=
  if nodeIsHazardous e.1 snap || nodeIsHazardous e.2.1 snap then adj
  else pushAdj (pushAdj adj e.1 (e.2.1, e.2.2)) e.2.1 (e.1, e.2.2)

/-- buildAdjacency (routing.js lines 75-91): every declared node gets an empty
neighbour list, then each edge whose endpoints are both passable is added in
both directions. -/
def buildAdjacency (fd : FloorDef) (snap : Snap) : List (String × List (String × Nat)) :=
  fd.edges.foldl (addEdge snap) (initAdj fd)

/-- Linear-scan extract-min (routing.js lines 128-133): returns the earliest
entry with minimal priority together with the queue with that entry spliced
out, or none when the queue is empty. The scan uses a strict comparison, so
the first occurrence of the minimum wins, exactly as the source loop. -/
def extractMin : List (String × Nat) → Option ((String × Nat) × List (String × Nat))
  | [] => none
  | p :: ps =>
    match extractMin ps with
    | none => some (p, [])
    | some (q, qs) => if q.2 < p.2 then some (q, p :: qs) else some (p, ps)

/-- Mutable state of the dijkstra main loop. -/
structure DState where
  dist : List (String × Option Nat)
  prev : List (String × Option String)
  pq : List (String × Nat)

/-- Comparison nd < dist[to] where dist[to] may be Infinity (none). -/
def ltInf (n : Nat) : Option Nat → Bool
  | none => true
  | some d => decide (n < d)

/-- Stale-entry guard du > dist[u] (routing.js line 135). When dist[u] is
Infinity or the key is missing the JS comparison is false and the entry is
processed. -/
def staleB (dist : List (String × Option Nat)) (u : String) (du : Nat) : Bool :=
  match lookE dist u with
  | some (some dv) => decide (dv < du)
  | _ => false

/-- Relaxation of one adjacency entry (routing.js lines 138-146): hazardous
neighbours are never relaxed into; otherwise dist/prev are updated and the
node is scheduled when the candidate distance is strictly smaller. A missing
dist key makes the JS comparison nd < undefined false, so nothing happens. -/
def relaxOne (snap : Snap) (u : String) (du : Nat) (st : DState) (e : String × Nat) : DState :=
  if nodeIsHazardous e.1 snap then st
  else
    match lookE st.dist e.1 with
    | none => st
    | some dcur =>
      if ltInf (du + e.2) dcur then
        ⟨setE st.dist e.1 (some (du + e.2)), setE st.prev e.1 (some u),
          st.pq ++ [(e.1, du + e.2)]⟩
      else st

/-- Number of Infinity entries of a distance map (termination measure). -/
def muI (m : List (String × Option Nat)) : Nat :=
  m.countP (fun p => p.2.isNone)

/-- Sum of the finite entries of a distance map (termination measure). -/
def muS (m : List (String × Option Nat)) : Nat :=
  (m.map (fun p => p.2.getD 0)).sum

theorem muI_filter_le (m : List (String × Option Nat)) (k : String) :
    muI (m.filter (fun p => decide (p.1 ≠ k))) ≤ muI m := by
  exact List.Sublist.countP_le _ (List.filter_sublist m)

theorem muS_filter_le (m : List (String × Option Nat)) (k : String) :
    muS (m.filter (fun p => decide (p.1 ≠ k))) ≤ muS m := by
  unfold muS
  exact List.Sublist.sum_le_sum ((List.filter_sublist m).map _) (by intro x hx; positivity)

theorem muI_cons_none (k : String) (t : List (String × Option Nat)) :
    muI ((k, none) :: t) = muI t + 1 := by
  simp [muI, List.countP_cons]

theorem muI_cons_some (k : String) (d : Nat) (t : List (String × Option Nat)) :
    muI ((k, some d) :: t) = muI t := by
  simp [muI, List.countP_cons]

theorem muS_cons (p : String × Option Nat) (t : List (String × Option Nat)) :
    muS (p :: t) = p.2.getD 0 + muS t := by
  simp only [muS, List.map_cons, List.sum_cons]

theorem setE_mu (m : List (String × Option Nat)) (k : String) (nd : Nat) (dcur : Option Nat)
    (hl : lookE m k = some dcur) (hlt : ltInf nd dcur = true) :
    muI (setE m k (some nd)) < muI m ∨
      (muI (setE m k (some nd)) = muI m ∧ muS (setE m k (some nd)) < muS m) := by
  induction m with
  | nil => simp [lookE] at hl
  | cons hd t ih =>
    obtain ⟨k1, v⟩ := hd
    by_cases hk : k1 = k
    · subst hk
      have hv : v = dcur := by simpa [lookE] using hl
      subst hv
      have hfi := muI_filter_le t k1
      have hfs := muS_filter_le t k1
      have hres : setE ((k1, v) :: t) k1 (some nd) =
          (k1, some nd) :: t.filter (fun p => decide (p.1 ≠ k1)) := by
        simp [setE, List.filter_cons]
      have hIr : muI (setE ((k1, v) :: t) k1 (some nd)) =
          muI (t.filter (fun p => decide (p.1 ≠ k1))) := by
        rw [hres, muI_cons_some]
      have hSr : muS (setE ((k1, v) :: t) k1 (some nd)) =
          nd + muS (t.filter (fun p => decide (p.1 ≠ k1))) := by
        rw [hres, muS_cons]
        simp
      cases v with
      | none =>
        left
        rw [hIr, muI_cons_none]
        omega
      | some dv =>
        have hnd : nd < dv := by simpa [ltInf] using hlt
        have hIm : muI ((k1, some dv) :: t) = muI t := muI_cons_some _ _ _
        have hSm : muS ((k1, some dv) :: t) = dv + muS t := by
          rw [muS_cons]
          simp
        rcases Nat.lt_or_ge (muI (t.filter (fun p => decide (p.1 ≠ k1)))) (muI t) with h | h
        · left; omega
        · right; omega
    · have hlt' : lookE t k = some dcur := by
        simpa [lookE, hk] using hl
      have ihr := ih hlt'
      have htail : setE t k (some nd) = (k, some nd) :: t.filter (fun p => decide (p.1 ≠ k)) := rfl
      cases v with
      | none =>
        have hres : setE ((k1, none) :: t) k (some nd) =
            (k, some nd) :: (k1, none) :: t.filter (fun p => decide (p.1 ≠ k)) := by
          simp [setE, List.filter_cons, hk]
        have hI1 : muI (setE ((k1, none) :: t) k (some nd)) = muI (setE t k (some nd)) + 1 := by
          rw [hres, htail, muI_cons_some, muI_cons_none, muI_cons_some]
        have hI2 : muI ((k1, (none : Option Nat)) :: t) = muI t + 1 := muI_cons_none _ _
        have hS1 : muS (setE ((k1, none) :: t) k (some nd)) = muS (setE t k (some nd)) := by
          rw [hres, htail, muS_cons, muS_cons, muS_cons]
          simp
        have hS2 : muS ((k1, (none : Option Nat)) :: t) = muS t := by
          rw [muS_cons]
          simp
        rcases ihr with h | ⟨h1, h2⟩
        · left; omega
        · right; omega
      | some vv =>
        have hres : setE ((k1, some vv) :: t) k (some nd) =
            (k, some nd) :: (k1, some vv) :: t.filter (fun p => decide (p.1 ≠ k)) := by
          simp [setE, List.filter_cons, hk]
        have hI1 : muI (setE ((k1, some vv) :: t) k (some nd)) = muI (setE t k (some nd)) := by
          rw [hres, htail, muI_cons_some, muI_cons_some, muI_cons_some]
        have hI2 : muI ((k1, some vv) :: t) = muI t := muI_cons_some _ _ _
        have hS1 : muS (setE ((k1, some vv) :: t) k (some nd)) =
            vv + muS (setE t k (some nd)) := by
          rw [hres, htail, muS_cons, muS_cons, muS_cons]
          simp
          omega
        have hS2 : muS ((k1, some vv) :: t) = vv + muS t := by
          rw [muS_cons]
          simp
        rcases ihr with h | ⟨h1, h2⟩
        · left; omega
        · right; omega

/-- Strict lexicographic decrease of the (muI, muS) measure pair. -/
def MLt (a b : Nat × Nat) : Prop :=
  a.1 < b.1 ∨ (a.1 = b.1 ∧ a.2 < b.2)

theorem MLt_trans {a b c : Nat × Nat} (h1 : MLt a b) (h2 : MLt b c) : MLt a c := by
  unfold MLt at *
  omega

theorem relaxOne_cases (snap : Snap) (u : String) (du : Nat) (st : DState) (e : String × Nat) :
    relaxOne snap u du st e = st ∨
      MLt (muI (relaxOne snap u du st e).dist, muS (relaxOne snap u du st e).dist)
        (muI st.dist, muS st.dist) := by
  unfold relaxOne
  by_cases hz : nodeIsHazardous e.1 snap
  · left; simp [hz]
  · simp only [hz, if_false, Bool.false_eq_true]
    cases hl : lookE st.dist e.1 with
    | none => left; rfl
    | some dcur =>
      by_cases hlt : ltInf (du + e.2) dcur = true
      · right
        simp only [hlt, if_true]
        have := setE_mu st.dist e.1 (du + e.2) dcur hl hlt
        unfold MLt
        rcases this with h | ⟨h1, h2⟩
        · left; exact h
        · right; exact ⟨h1, h2⟩
      · left
        simp only [Bool.not_eq_true] at hlt
        simp [hlt]

theorem foldRelax_cases (snap : Snap) (u : String) (du : Nat) :
    ∀ (l : List (String × Nat)) (st : DState),
      ((l.foldl (relaxOne snap u du) st).dist = st.dist ∧
        (l.foldl (relaxOne snap u du) st).pq = st.pq) ∨
      MLt (muI (l.foldl (relaxOne snap u du) st).dist, muS (l.foldl (relaxOne snap u du) st).dist)
        (muI st.dist, muS st.dist) := by
  intro l
  induction l with
  | nil => intro st; left; exact ⟨rfl, rfl⟩
  | cons e t ih =>
    intro st
    simp only [List.foldl_cons]
    rcases relaxOne_cases snap u du st e with he | he
    · rw [he]; exact ih st
    · rcases ih (relaxOne snap u du st e) with ⟨h1, h2⟩ | h
      · right; rw [h1]; exact he
      · right; exact MLt_trans h he

theorem extractMin_cons_none {ps : List (String × Nat)} (p : String × Nat)
    (h : extractMin ps = none) : extractMin (p :: ps) = some (p, []) := by
  unfold extractMin
  rw [h]

theorem extractMin_cons_some {ps : List (String × Nat)} (p : String × Nat)
    {q : String × Nat} {qs : List (String × Nat)} (h : extractMin ps = some (q, qs)) :
    extractMin (p :: ps) = if q.2 < p.2 then some (q, p :: qs) else some (p, ps) := by
  unfold extractMin
  rw [h]

theorem extractMin_eq_none {pq : List (String × Nat)} :
    extractMin pq = none ↔ pq = [] := by
  constructor
  · intro h
    cases pq with
    | nil => rfl
    | cons p ps =>
      cases h2 : extractMin ps with
      | none => rw [extractMin_cons_none p h2] at h; simp at h
      | some v =>
        obtain ⟨q, qs⟩ := v
        rw [extractMin_cons_some p h2] at h
        split at h <;> simp at h
  · intro h; subst h; rfl

theorem extractMin_perm :
    ∀ (pq : List (String × Nat)) (a : String × Nat) (rest : List (String × Nat)),
      extractMin pq = some (a, rest) → pq.Perm (a :: rest) := by
  intro pq
  induction pq with
  | nil => intro a rest h; simp [extractMin] at h
  | cons p ps ih =>
    intro a rest h
    cases hrec : extractMin ps with
    | none =>
      rw [extractMin_cons_none p hrec] at h
      simp only [Option.some.injEq, Prod.mk.injEq] at h
      obtain ⟨h1, h2⟩ := h
      subst h1
      subst h2
      have hnil : ps = [] := extractMin_eq_none.mp hrec
      subst hnil
      exact List.Perm.refl _
    | some v =>
      obtain ⟨q, qs⟩ := v
      rw [extractMin_cons_some p hrec] at h
      have hperm := ih q qs hrec
      by_cases hq : q.2 < p.2
      · rw [if_pos hq] at h
        simp only [Option.some.injEq, Prod.mk.injEq] at h
        obtain ⟨h1, h2⟩ := h
        subst h1
        subst h2
        exact (hperm.cons p).trans (List.Perm.swap _ p qs)
      · rw [if_neg hq] at h
        simp only [Option.some.injEq, Prod.mk.injEq] at h
        obtain ⟨h1, h2⟩ := h
        subst h1
        subst h2
        exact List.Perm.refl _

theorem extractMin_length {pq : List (String × Nat)} {a : String × Nat}
    {rest : List (String × Nat)} (h : extractMin pq = some (a, rest)) :
    pq.length = rest.length + 1 := by
  have := (extractMin_perm pq a rest h).length_eq
  simpa using this

/-- Main loop of dijkstra (routing.js lines 127-147): repeatedly extract the
minimum-priority entry, apply the stale-entry guard and the hazard guard, and
relax every adjacency entry of the extracted node. Terminates because every
queue push strictly decreases a distance entry. -/
def dijkstraLoop (adj : List (String × List (String × Nat))) (snap : Snap) (st : DState) :
    List (String × Option Nat) × List (String × Option String) :=
  match hpq : extractMin st.pq with
  | none => (st.dist, st.prev)
  | some (ud, pq') =>
    if staleB st.dist ud.1 ud.2 then dijkstraLoop adj snap ⟨st.dist, st.prev, pq'⟩
    else if nodeIsHazardous ud.1 snap then dijkstraLoop adj snap ⟨st.dist, st.prev, pq'⟩
    else dijkstraLoop adj snap
      (((lookE adj ud.1).getD []).foldl (relaxOne snap ud.1 ud.2) ⟨st.dist, st.prev, pq'⟩)
termination_by (muI st.dist, muS st.dist, st.pq.length)
decreasing_by
  · rw [Prod.lex_def]
    right
    refine ⟨rfl, ?_⟩
    rw [Prod.lex_def]
    right
    exact ⟨rfl, by simpa using Nat.lt_of_lt_of_eq (Nat.lt_succ_self _) (extractMin_length hpq).symm⟩
  · rw [Prod.lex_def]
    right
    refine ⟨rfl, ?_⟩
    rw [Prod.lex_def]
    right
    exact ⟨rfl, by simpa using Nat.lt_of_lt_of_eq (Nat.lt_succ_self _) (extractMin_length hpq).symm⟩
  · rcases foldRelax_cases snap ud.1 ud.2 ((lookE adj ud.1).getD []) ⟨st.dist, st.prev, pq'⟩
      with ⟨h1, h2⟩ | h
    · rw [Prod.lex_def]
      right
      refine ⟨by rw [h1], ?_⟩
      rw [Prod.lex_def]
      right
      refine ⟨by rw [h1], ?_⟩
      rw [h2]
      simpa using Nat.lt_of_lt_of_eq (Nat.lt_succ_self _) (extractMin_length hpq).symm
    · rcases h with h | ⟨h1, h2⟩
      · rw [Prod.lex_def]; left; exact h
      · rw [Prod.lex_def]
        right
        refine ⟨h1, ?_⟩
        rw [Prod.lex_def]
        left
        exact h2

/-- Initial distance map: every declared node at Infinity (routing.js lines
110-115). -/
def initDist (fd : FloorDef) : List (String × Option Nat) :=
  (allIds fd).foldl (fun m id => setE m id none) []

/-- Initial predecessor map: every declared node at null (routing.js lines
110-115). -/
def initPrev (fd : FloorDef) : List (String × Option String) :=
  (allIds fd).foldl (fun m id => setE m id none) []

/-- dijkstra (routing.js lines 106-150). Every declared node starts at
Infinity with no predecessor; a hazardous start returns immediately;
otherwise the start distance becomes 0 and the loop runs on the adjacency
structure built from the same snapshot. -/
def dijkstra (fd : FloorDef) (startId : String) (snap : Snap) :
    List (String × Option Nat) × List (String × Option String) :=
  if nodeIsHazardous startId snap then (initDist fd, initPrev fd)
  else
    dijkstraLoop (buildAdjacency fd snap) snap
      ⟨setE (initDist fd) startId (some 0), initPrev fd, [(startId, 0)]⟩

/-- Predecessor read inside mkPath. A stored null stops the walk; a missing
key would make the source spin forever on undefined (it is never hit, because
mkPath is only called on declared ids and prev holds every declared id). -/
def prevGet (prev : List (String × Option String)) (v : String) : Option String :=
  match lookE prev v with
  | some (some u) => some u
  | _ => none

/-- Fuel-indexed unfolding of the mkPath while loop (routing.js lines
153-161): prepend the current node and follow the predecessor pointer. -/
def mkPathAux : Nat → List (String × Option String) → String → List String → List String
  | 0, _, cur, acc => cur :: acc
  | fuel + 1, prev, cur, acc =>
    match prevGet prev cur with
    | none => cur :: acc
    | some u => mkPathAux fuel prev u (cur :: acc)

/-- mkPath (routing.js lines 153-161). The fuel strictly exceeds the number
of keys of prev; predecessor chains are acyclic and visit distinct keys, so
the fuel is never exhausted on states produced by dijkstra. -/
def mkPath (prev : List (String × Option String)) (endId : String) : List String :=
  mkPathAux (prev.length + 1) prev endId []

/-- Route result (routing.js findRoute: { exitId, d, path }). -/
structure Route where
  exitId : String
  d : Nat
  path : List String
deriving DecidableEq, Repr

/-- One step of the nearest-open-exit fold (routing.js lines 188-194): skip
exits marked exit-blocked, skip non-finite distances, keep the strictly
closest exit seen so far (ties keep the earlier exit). -/
def selectStep (snap : Snap) (dist : List (String × Option Nat))
    (prev : List (String × Option String)) (b : Option Route) (e : String) : Option Route :=
  if snapGet snap e = "exit-blocked" then b
  else
    match lookE dist e with
    | some (some d) =>
      match b with
      | none => some ⟨e, d, mkPath prev e⟩
      | some bb => if d < bb.d then some ⟨e, d, mkPath prev e⟩ else b
    | _ => b

/-- Fold of selectStep over the declared exits in order (routing.js
exits.forEach, lines 188-194). -/
def selectBest (exits : List String) (snap : Snap) (dist : List (String × Option Nat))
    (prev : List (String × Option String)) : Option Route :=
  exits.foldl (selectStep snap dist prev) none

/-- findRoute (routing.js lines 176-207), with the globals pos, floor and the
hazard snapshot passed explicitly. A JS-falsy position (null or the empty
string) returns null at once; after exit selection, Layer 3 re-checks every
intermediate path node and discards the result if any is hazardous. -/
def findRoute (fd : FloorDef) (pos : Option String) (snap : Snap) : Option Route :=
  match pos with
  | none => none
  | some s =>
    if s = "" then none
    else
      match selectBest fd.exits snap (dijkstra fd s snap).1 (dijkstra fd s snap).2 with
      | none => none
      | some best =>
        if ((best.path.drop 1).dropLast.all fun x => !nodeIsHazardous x snap) then some best
        else none

/-- Ground floor of the building definition (data.js, BLDG.GF). -/
def GF : FloorDef where
  rooms := ["entrance", "reception", "control", "main_hall", "kitchen", "washroom", "stairGF"]
  exits := ["exitA", "exitB"]
  edges :=
    [("entrance", "reception", 1), ("reception", "control", 1), ("entrance", "main_hall", 1),
     ("reception", "main_hall", 1), ("control", "kitchen", 1), ("main_hall", "kitchen", 1),
     ("main_hall", "washroom", 1), ("kitchen", "stairGF", 1), ("washroom", "stairGF", 1),
     ("entrance", "exitA", 1), ("washroom", "exitA", 1), ("stairGF", "exitA", 1),
     ("control", "exitB", 1), ("reception", "exitB", 1), ("kitchen", "exitB", 1)]

/-- Minimal two-room floor used to instantiate the general theorems. -/
def lineFloor : FloorDef where
  rooms := ["a", "m"]
  exits := ["x"]
  edges := [("a", "m", 1), ("m", "x", 1)]

/-- Minimal floor with two exits at equal distance from the single room. -/
def forkFloor : FloorDef where
  rooms := ["a"]
  exits := ["x", "y"]
  edges := [("a", "x", 1), ("a", "y", 1)]

/-! Basic lemmas about the association-list operations. -/

theorem lookE_setE_self {α : Type} (m : List (String × α)) (k : String) (v : α) :
    lookE (setE m k v) k = some v := by
  simp [setE, lookE]

theorem lookE_filter_ne {α : Type} (m : List (String × α)) (k k' : String) (hk : k' ≠ k) :
    lookE (m.filter (fun p => decide (p.1 ≠ k))) k' = lookE m k' := by
  induction m with
  | nil => rfl
  | cons p t ih =>
    obtain ⟨k1, v⟩ := p
    by_cases h1 : k1 = k
    · subst h1
      rw [List.filter_cons_of_neg (by simp)]
      rw [ih]
      have h2 : k1 ≠ k' := fun h => hk h.symm
      simp [lookE, h2]
    · rw [List.filter_cons_of_pos (by simp [h1])]
      by_cases h2 : k1 = k'
      · simp [lookE, h2]
      · simp only [lookE, if_neg h2]
        exact ih

theorem lookE_setE_ne {α : Type} (m : List (String × α)) (k : String) (v : α) (k' : String)
    (hk : k' ≠ k) : lookE (setE m k v) k' = lookE m k' := by
  have : k ≠ k' := fun h => hk h.symm
  simp only [setE, lookE, if_neg this]
  exact lookE_filter_ne m k k' hk

theorem lookE_delE_self {α : Type} (m : List (String × α)) (k : String) :
    lookE (delE m k) k = none := by
  induction m with
  | nil => rfl
  | cons p t ih =>
    obtain ⟨k1, v⟩ := p
    by_cases h1 : k1 = k
    · subst h1
      unfold delE at *
      rw [List.filter_cons_of_neg (by simp)]
      exact ih
    · unfold delE at *
      rw [List.filter_cons_of_pos (by simp [h1])]
      simp only [lookE, if_neg h1]
      exact ih

theorem lookE_foldl_init {α : Type} (l : List String) (m0 : List (String × α)) (c : α)
    (v : String) :
    lookE (l.foldl (fun m id => setE m id c) m0) v = if v ∈ l then some c else lookE m0 v := by
  induction l generalizing m0 with
  | nil => simp
  | cons a t ih =>
    simp only [List.foldl_cons]
    rw [ih (setE m0 a c)]
    by_cases hv : v ∈ t
    · simp [hv]
    · by_cases ha : v = a
      · subst ha
        simp [hv, lookE_setE_self]
      · simp [hv, ha, lookE_setE_ne m0 a c v ha]

theorem lookE_initDist (fd : FloorDef) (v : String) :
    lookE (initDist fd) v = if v ∈ allIds fd then some none else none := by
  unfold initDist
  rw [lookE_foldl_init]
  rfl

theorem lookE_initPrev (fd : FloorDef) (v : String) :
    lookE (initPrev fd) v = if v ∈ allIds fd then some none else none := by
  unfold initPrev
  rw [lookE_foldl_init]
  rfl

theorem lookE_initAdj (fd : FloorDef) (v : String) :
    lookE (initAdj fd) v = if v ∈ allIds fd then some [] else none := by
  unfold initAdj
  rw [lookE_foldl_init]
  rfl

theorem pushAdj_isSome (adj : List (String × List (String × Nat))) (k : String)
    (e : String × Nat) (v : String) :
    (lookE (pushAdj adj k e) v).isSome = (lookE adj v).isSome := by
  unfold pushAdj
  cases hl : lookE adj k with
  | none => rfl
  | some l =>
    by_cases hv : v = k
    · subst hv
      rw [lookE_setE_self, hl]
      rfl
    · rw [lookE_setE_ne _ _ _ _ hv]

theorem foldAddEdge_isSome (snap : Snap) (v : String) :
    ∀ (es : List (String × String × Nat)) (adj : List (String × List (String × Nat))),
      (lookE (es.foldl (addEdge snap) adj) v).isSome = (lookE adj v).isSome := by
  intro es
  induction es with
  | nil => intro adj; rfl
  | cons e t ih =>
    intro adj
    simp only [List.foldl_cons]
    rw [ih]
    unfold addEdge
    split
    · rfl
    · rw [pushAdj_isSome, pushAdj_isSome]

theorem buildAdjacency_isSome (fd : FloorDef) (snap : Snap) (v : String) :
    (lookE (buildAdjacency fd snap) v).isSome = true ↔ v ∈ allIds fd := by
  unfold buildAdjacency
  rw [foldAddEdge_isSome]
  rw [lookE_initAdj]
  by_cases hv : v ∈ allIds fd <;> simp [hv]

/-! Properties of the nearest-open-exit selection fold. -/

/-- Invariants of any route held by the selection accumulator: its exit is
not exit-blocked, its distance is the recorded finite distance of that exit,
and its path is the reconstruction from prev. -/
def ResultOk (snap : Snap) (dist : List (String × Option Nat))
    (prev : List (String × Option String)) (r : Route) : Prop :=
  snapGet snap r.exitId ≠ "exit-blocked" ∧
    lookE dist r.exitId = some (some r.d) ∧ r.path = mkPath prev r.exitId

theorem selectStep_noncand (snap : Snap) (dist : List (String × Option Nat))
    (prev : List (String × Option String)) (b : Option Route) (e : String)
    (h : snapGet snap e = "exit-blocked" ∨ ∀ d, lookE dist e ≠ some (some d)) :
    selectStep snap dist prev b e = b := by
  unfold selectStep
  rcases h with h | h
  · rw [if_pos h]
  · by_cases hb : snapGet snap e = "exit-blocked"
    · rw [if_pos hb]
    · rw [if_neg hb]
      cases hl : lookE dist e with
      | none => rfl
      | some dv =>
        cases dv with
        | none => rfl
        | some d => exact absurd hl (h d)

theorem selectStep_some (snap : Snap) (dist : List (String × Option Nat))
    (prev : List (String × Option String)) (bb : Route) (e : String) :
    ∃ bb', selectStep snap dist prev (some bb) e = some bb' ∧ bb'.d ≤ bb.d := by
  unfold selectStep
  by_cases hb : snapGet snap e = "exit-blocked"
  · exact ⟨bb, by rw [if_pos hb], le_refl _⟩
  · rw [if_neg hb]
    cases hl : lookE dist e with
    | none => exact ⟨bb, rfl, le_refl _⟩
    | some dv =>
      cases dv with
      | none => exact ⟨bb, rfl, le_refl _⟩
      | some d =>
        by_cases hd : d < bb.d
        · exact ⟨⟨e, d, mkPath prev e⟩, by simp [selectStep, hb, hl, hd], le_of_lt hd⟩
        · exact ⟨bb, by simp [selectStep, hb, hl, hd], le_refl _⟩

theorem selectStep_at_cand (snap : Snap) (dist : List (String × Option Nat))
    (prev : List (String × Option String)) (b : Option Route) (e : String) (d : Nat)
    (hopen : snapGet snap e ≠ "exit-blocked") (hd : lookE dist e = some (some d)) :
    ∃ bb', selectStep snap dist prev b e = some bb' ∧ bb'.d ≤ d := by
  unfold selectStep
  rw [if_neg hopen, hd]
  cases b with
  | none => exact ⟨⟨e, d, mkPath prev e⟩, rfl, le_refl _⟩
  | some bb =>
    by_cases hlt : d < bb.d
    · exact ⟨⟨e, d, mkPath prev e⟩, by simp [hlt], le_refl _⟩
    · exact ⟨bb, by simp [hlt], Nat.le_of_not_lt hlt⟩

theorem selectFold_some (snap : Snap) (dist : List (String × Option Nat))
    (prev : List (String × Option String)) :
    ∀ (l : List String) (bb : Route),
      ∃ r, l.foldl (selectStep snap dist prev) (some bb) = some r ∧ r.d ≤ bb.d := by
  intro l
  induction l with
  | nil => intro bb; exact ⟨bb, rfl, le_refl _⟩
  | cons e t ih =>
    intro bb
    obtain ⟨bb', h1, h2⟩ := selectStep_some snap dist prev bb e
    obtain ⟨r, h3, h4⟩ := ih bb'
    refine ⟨r, ?_, le_trans h4 h2⟩
    rw [List.foldl_cons, h1]
    exact h3

theorem selectStep_resultOk (snap : Snap) (dist : List (String × Option Nat))
    (prev : List (String × Option String)) (b : Option Route) (e : String) (r : Route)
    (hb : ∀ rr, b = some rr → ResultOk snap dist prev rr)
    (h : selectStep snap dist prev b e = some r) : ResultOk snap dist prev r := by
  unfold selectStep at h
  by_cases hbl : snapGet snap e = "exit-blocked"
  · rw [if_pos hbl] at h
    exact hb r h
  · rw [if_neg hbl] at h
    cases hl : lookE dist e with
    | none => rw [hl] at h; exact hb r h
    | some dv =>
      rw [hl] at h
      cases dv with
      | none => exact hb r h
      | some d =>
        cases b with
        | none =>
          dsimp only at h
          simp only [Option.some.injEq] at h
          subst h
          exact ⟨hbl, hl, rfl⟩
        | some bb =>
          dsimp only at h
          by_cases hlt : d < bb.d
          · rw [if_pos hlt] at h
            simp only [Option.some.injEq] at h
            subst h
            exact ⟨hbl, hl, rfl⟩
          · rw [if_neg hlt] at h
            exact hb r h

theorem selectFold_resultOk (snap : Snap) (dist : List (String × Option Nat))
    (prev : List (String × Option String)) :
    ∀ (l : List String) (b : Option Route), (∀ rr, b = some rr → ResultOk snap dist prev rr) →
      ∀ r, l.foldl (selectStep snap dist prev) b = some r → ResultOk snap dist prev r := by
  intro l
  induction l with
  | nil => intro b hb r h; exact hb r h
  | cons e t ih =>
    intro b hb r h
    rw [List.foldl_cons] at h
    exact ih (selectStep snap dist prev b e)
      (fun rr hrr => selectStep_resultOk snap dist prev b e rr hb hrr) r h

theorem selectBest_resultOk (snap : Snap) (dist : List (String × Option Nat))
    (prev : List (String × Option String)) (exits : List String) (r : Route)
    (h : selectBest exits snap dist prev = some r) : ResultOk snap dist prev r :=
  selectFold_resultOk snap dist prev exits none (by intro rr hrr; cases hrr) r h

theorem selectFold_min (snap : Snap) (dist : List (String × Option Nat))
    (prev : List (String × Option String)) :
    ∀ (l : List String) (b : Option Route) (r : Route),
      l.foldl (selectStep snap dist prev) b = some r →
      ∀ e ∈ l, snapGet snap e ≠ "exit-blocked" →
        ∀ d, lookE dist e = some (some d) → r.d ≤ d := by
  intro l
  induction l with
  | nil => intro b r _ e he; cases he
  | cons a t ih =>
    intro b r h e he hopen d hd
    rw [List.foldl_cons] at h
    rcases List.mem_cons.mp he with he | he
    · subst he
      obtain ⟨bb', h1, h2⟩ := selectStep_at_cand snap dist prev b e d hopen hd
      rw [h1] at h
      obtain ⟨r', h3, h4⟩ := selectFold_some snap dist prev t bb'
      rw [h] at h3
      have : r' = r := by
        injection h3 with hrr
        exact hrr.symm
      subst this
      exact le_trans h4 h2
    · exact ih (selectStep snap dist prev b a) r h e he hopen d hd

theorem selectFold_const (snap : Snap) (dist : List (String × Option Nat))
    (prev : List (String × Option String)) :
    ∀ (l : List String) (b : Option Route),
      (∀ e ∈ l, snapGet snap e = "exit-blocked" ∨ ∀ d, lookE dist e ≠ some (some d)) →
      l.foldl (selectStep snap dist prev) b = b := by
  intro l
  induction l with
  | nil => intro b _; rfl
  | cons a t ih =>
    intro b hall
    rw [List.foldl_cons, selectStep_noncand snap dist prev b a (hall a (by simp))]
    exact ih b fun e he => hall e (by simp [he])

theorem selectFold_some_of_cand (snap : Snap) (dist : List (String × Option Nat))
    (prev : List (String × Option String)) :
    ∀ (l : List String) (b : Option Route) (e : String) (d : Nat), e ∈ l →
      snapGet snap e ≠ "exit-blocked" → lookE dist e = some (some d) →
      ∃ r, l.foldl (selectStep snap dist prev) b = some r := by
  intro l
  induction l with
  | nil => intro b e d he; cases he
  | cons a t ih =>
    intro b e d he hopen hd
    rw [List.foldl_cons]
    rcases List.mem_cons.mp he with he | he
    · subst he
      obtain ⟨bb', h1, _⟩ := selectStep_at_cand snap dist prev b e d hopen hd
      rw [h1]
      obtain ⟨r, h3, _⟩ := selectFold_some snap dist prev t bb'
      exact ⟨r, h3⟩
    · exact ih (selectStep snap dist prev b a) e d he hopen hd

theorem selectBest_none_iff (snap : Snap) (dist : List (String × Option Nat))
    (prev : List (String × Option String)) (exits : List String) :
    selectBest exits snap dist prev = none ↔
      ∀ e ∈ exits, snapGet snap e = "exit-blocked" ∨ ∀ d, lookE dist e ≠ some (some d) := by
  constructor
  · intro h e he
    by_contra hc
    push_neg at hc
    obtain ⟨hopen, d, hd⟩ := hc
    obtain ⟨r, hr⟩ := selectFold_some_of_cand snap dist prev exits none e d he hopen hd
    rw [selectBest] at h
    rw [h] at hr
    cases hr
  · intro h
    exact selectFold_const snap dist prev exits none h

/-! Unfolding lemmas for the main loop and findRoute. -/

theorem dijkstraLoop_empty (adj : List (String × List (String × Nat))) (snap : Snap)
    (d : List (String × Option Nat)) (p : List (String × Option String)) :
    dijkstraLoop adj snap ⟨d, p, []⟩ = (d, p) := by
  rw [dijkstraLoop]
  split
  · rfl
  · rename_i ud pq2 heq
    simp [extractMin] at heq

theorem dijkstraLoop_step (adj : List (String × List (String × Nat))) (snap : Snap)
    (st : DState) (ud : String × Nat) (pq' : List (String × Nat))
    (hpq : extractMin st.pq = some (ud, pq')) :
    dijkstraLoop adj snap st =
      if staleB st.dist ud.1 ud.2 then dijkstraLoop adj snap ⟨st.dist, st.prev, pq'⟩
      else if nodeIsHazardous ud.1 snap then dijkstraLoop adj snap ⟨st.dist, st.prev, pq'⟩
      else dijkstraLoop adj snap
        (((lookE adj ud.1).getD []).foldl (relaxOne snap ud.1 ud.2) ⟨st.dist, st.prev, pq'⟩) := by
  rw [dijkstraLoop]
  split
  · rename_i heq
    rw [hpq] at heq
    cases heq
  · rename_i ud2 pq2 heq
    rw [hpq] at heq
    injection heq with heq2
    injection heq2 with h1 h2
    subst h1
    subst h2
    rfl

theorem dijkstra_haz (fd : FloorDef) (snap : Snap) (s : String)
    (h : nodeIsHazardous s snap = true) : dijkstra fd s snap = (initDist fd, initPrev fd) := by
  simp [dijkstra, h]

/-- Inversion of a successful findRoute call: the start was a selected,
non-empty position, exit selection succeeded with the same route, and the
Layer 3 verification passed. -/
theorem findRoute_some_inv (fd : FloorDef) (pos : Option String) (snap : Snap) (r : Route)
    (h : findRoute fd pos snap = some r) :
    ∃ s, pos = some s ∧ s ≠ "" ∧
      selectBest fd.exits snap (dijkstra fd s snap).1 (dijkstra fd s snap).2 = some r ∧
      ∀ x ∈ (r.path.drop 1).dropLast, nodeIsHazardous x snap = false := by
  cases pos with
  | none => simp [findRoute] at h
  | some s =>
    refine ⟨s, rfl, ?_⟩
    simp only [findRoute] at h
    by_cases hs : s = ""
    · rw [if_pos hs] at h
      cases h
    · rw [if_neg hs] at h
      refine ⟨hs, ?_⟩
      cases hsel : selectBest fd.exits snap (dijkstra fd s snap).1 (dijkstra fd s snap).2 with
      | none => rw [hsel] at h; cases h
      | some best =>
        rw [hsel] at h
        dsimp only at h
        by_cases hall : ((best.path.drop 1).dropLast.all fun x => !nodeIsHazardous x snap) = true
        · rw [if_pos hall] at h
          injection h with hbr
          subst hbr
          refine ⟨rfl, ?_⟩
          intro x hx
          have := List.all_eq_true.mp hall x hx
          simpa using this
        · rw [if_neg hall] at h
          cases h

theorem selectStep_cases (snap : Snap) (dist : List (String × Option Nat))
    (prev : List (String × Option String)) (b : Option Route) (e : String) (r : Route)
    (h : selectStep snap dist prev b e = some r) :
    b = some r ∨
      (snapGet snap e ≠ "exit-blocked" ∧ lookE dist e = some (some r.d) ∧ r.exitId = e ∧
        ∀ bb, b = some bb → r.d < bb.d) := by
  unfold selectStep at h
  by_cases hbl : snapGet snap e = "exit-blocked"
  · rw [if_pos hbl] at h
    exact Or.inl h
  · rw [if_neg hbl] at h
    cases hl : lookE dist e with
    | none => rw [hl] at h; exact Or.inl h
    | some dv =>
      rw [hl] at h
      cases dv with
      | none => exact Or.inl h
      | some d =>
        cases b with
        | none =>
          dsimp only at h
          injection h with hbr
          subst hbr
          exact Or.inr ⟨hbl, rfl, rfl, fun bb hbb => by cases hbb⟩
        | some bb =>
          dsimp only at h
          by_cases hlt : d < bb.d
          · rw [if_pos hlt] at h
            injection h with hbr
            subst hbr
            exact Or.inr ⟨hbl, rfl, rfl, fun bb2 hbb2 => by injection hbb2 with hb3; subst hb3; exact hlt⟩
          · rw [if_neg hlt] at h
            exact Or.inl h

theorem selectFold_split (snap : Snap) (dist : List (String × Option Nat))
    (prev : List (String × Option String)) :
    ∀ (l : List String) (b : Option Route) (r : Route),
      l.foldl (selectStep snap dist prev) b = some r →
      b = some r ∨
      (∃ l1 l2, l = l1 ++ r.exitId :: l2 ∧ snapGet snap r.exitId ≠ "exit-blocked" ∧
        lookE dist r.exitId = some (some r.d) ∧
        (∀ e ∈ l1, snapGet snap e ≠ "exit-blocked" →
          ∀ d, lookE dist e = some (some d) → r.d < d) ∧
        (∀ bb, b = some bb → r.d < bb.d)) := by
  intro l
  induction l with
  | nil => intro b r h; exact Or.inl h
  | cons a t ih =>
    intro b r h
    rw [List.foldl_cons] at h
    rcases ih (selectStep snap dist prev b a) r h with hc1 | ⟨l1, l2, hsplit, hopen, hlook, hl1, hbprop⟩
    · rcases selectStep_cases snap dist prev b a r hc1 with hb1 | ⟨hopen, hlook, hexit, hbp⟩
      · exact Or.inl hb1
      · subst hexit
        refine Or.inr ⟨[], t, rfl, hopen, hlook, ?_, hbp⟩
        intro e he
        cases he
    · refine Or.inr ⟨a :: l1, l2, ?_, hopen, hlook, ?_, ?_⟩
      · rw [hsplit]
        rfl
      · intro e he heopen d hd
        rcases List.mem_cons.mp he with he | he
        · subst he
          obtain ⟨bb', h1, h2⟩ := selectStep_at_cand snap dist prev b e d heopen hd
          exact lt_of_lt_of_le (hbprop bb' h1) h2
        · exact hl1 e he heopen d hd
      · intro bb hbb
        subst hbb
        obtain ⟨bb', h1, h2⟩ := selectStep_some snap dist prev bb a
        exact lt_of_lt_of_le (hbprop bb' h1) h2

/-! Shared consequences of a failed exit selection. -/

theorem findRoute_none_of_selectBest_none (fd : FloorDef) (snap : Snap) (s : String)
    (hsel : selectBest fd.exits snap (dijkstra fd s snap).1 (dijkstra fd s snap).2 = none) :
    findRoute fd (some s) snap = none := by
  simp only [findRoute]
  by_cases hs : s = ""
  · rw [if_pos hs]
  · rw [if_neg hs, hsel]

theorem mem_allIds_of_exit (fd : FloorDef) (e : String) (he : e ∈ fd.exits) :
    e ∈ allIds fd := by
  unfold allIds
  exact List.mem_append_right _ he

theorem findRoute_none_of_hazStart (fd : FloorDef) (snap : Snap) (s : String)
    (h : nodeIsHazardous s snap = true) : findRoute fd (some s) snap = none := by
  apply findRoute_none_of_selectBest_none
  rw [selectBest_none_iff]
  intro e he
  right
  intro d hcon
  rw [dijkstra_haz fd snap s h] at hcon
  simp only at hcon
  rw [lookE_initDist, if_pos (mem_allIds_of_exit fd e he)] at hcon
  simp at hcon

/-! Claim theorems. -/

/-- C1: for every floor definition, hazard snapshot and start, a returned
Route Result never contains a node with hazard kind in
{fire, smoke, blocked, closed} strictly between its first and last entry:
every such intermediate node fails nodeIsHazardous under that snapshot. -/
theorem claim_C1 (fd : FloorDef) (pos : Option String) (snap : Snap) (r : Route)
    (h : findRoute fd pos snap = some r) :
    ∀ x ∈ (r.path.drop 1).dropLast, nodeIsHazardous x snap = false := by
  obtain ⟨s, _, _, _, hver⟩ := findRoute_some_inv fd pos snap r h
  exact hver

/-- Witness for C1 on a concrete three-node route. -/
theorem claim_C1_witness :
    findRoute lineFloor (some "a") [] = some ⟨"x", 2, ["a", "m", "x"]⟩ ∧
    ∀ x ∈ ((["a", "m", "x"] : List String).drop 1).dropLast, nodeIsHazardous x [] = false := by
  have h : findRoute lineFloor (some "a") [] = some ⟨"x", 2, ["a", "m", "x"]⟩ := by
    simp [findRoute, dijkstra, dijkstraLoop, extractMin, staleB, relaxOne, selectBest, selectStep,
      mkPath, mkPathAux, prevGet, buildAdjacency, initAdj, initDist, initPrev, pushAdj, setE,
      lookE, delE, snapGet, nodeIsHazardous, ROOM_HAZARD_TYPES, allIds, ltInf, lineFloor]
  exact ⟨h, claim_C1 lineFloor (some "a") [] ⟨"x", 2, ["a", "m", "x"]⟩ h⟩

/-- C3: the exit chosen by findRoute never has snapshot value exit-blocked. -/
theorem claim_C3 (fd : FloorDef) (pos : Option String) (snap : Snap) (r : Route)
    (h : findRoute fd pos snap = some r) : snapGet snap r.exitId ≠ "exit-blocked" := by
  obtain ⟨s, _, _, hsel, _⟩ := findRoute_some_inv fd pos snap r h
  exact (selectBest_resultOk snap _ _ fd.exits r hsel).1

/-- Witness for C3: with the first exit exit-blocked the other is chosen. -/
theorem claim_C3_witness :
    findRoute forkFloor (some "a") [("x", "exit-blocked")] = some ⟨"y", 1, ["a", "y"]⟩ ∧
    snapGet [("x", "exit-blocked")] "y" ≠ "exit-blocked" := by
  have h : findRoute forkFloor (some "a") [("x", "exit-blocked")] =
      some ⟨"y", 1, ["a", "y"]⟩ := by
    simp [findRoute, dijkstra, dijkstraLoop, extractMin, staleB, relaxOne, selectBest, selectStep,
      mkPath, mkPathAux, prevGet, buildAdjacency, initAdj, initDist, initPrev, pushAdj, setE,
      lookE, delE, snapGet, nodeIsHazardous, ROOM_HAZARD_TYPES, allIds, ltInf, forkFloor]
  exact ⟨h, claim_C3 forkFloor (some "a") [("x", "exit-blocked")] ⟨"y", 1, ["a", "y"]⟩ h⟩

/-- C4: a start whose hazard kind is impassable makes dijkstra return with
every declared node at Infinity and findRoute return the no-route value,
whatever the rest of the graph and snapshot contain. -/
theorem claim_C4 (fd : FloorDef) (snap : Snap) (s : String)
    (h : nodeIsHazardous s snap = true) :
    (∀ v ∈ allIds fd, lookE (dijkstra fd s snap).1 v = some none) ∧
    findRoute fd (some s) snap = none := by
  constructor
  · intro v hv
    rw [dijkstra_haz fd snap s h]
    simp [lookE_initDist, hv]
  · exact findRoute_none_of_hazStart fd snap s h

/-- Witness for C4 on the ground floor with a burning start room. -/
theorem claim_C4_witness :
    nodeIsHazardous "entrance" [("entrance", "fire")] = true ∧
    (∀ v ∈ allIds GF, lookE (dijkstra GF "entrance" [("entrance", "fire")]).1 v = some none) ∧
    findRoute GF (some "entrance") [("entrance", "fire")] = none := by
  have h : nodeIsHazardous "entrance" [("entrance", "fire")] = true := by decide
  exact ⟨h, claim_C4 GF [("entrance", "fire")] "entrance" h⟩

/-- C6: the exit of a returned route appears in the declared exit list with
every earlier declared exit either exit-blocked, without finite distance, or
strictly farther; moreover no open exit anywhere in the list has a smaller
finite distance. Ties in finite distance therefore resolve to the first
declared exit. -/
theorem claim_C6 (fd : FloorDef) (pos : Option String) (snap : Snap) (r : Route)
    (h : findRoute fd pos snap = some r) :
    ∃ s, pos = some s ∧
      (∃ l1 l2, fd.exits = l1 ++ r.exitId :: l2 ∧
        ∀ e ∈ l1, snapGet snap e ≠ "exit-blocked" →
          ∀ d, lookE (dijkstra fd s snap).1 e = some (some d) → r.d < d) ∧
      ∀ e ∈ fd.exits, snapGet snap e ≠ "exit-blocked" →
        ∀ d, lookE (dijkstra fd s snap).1 e = some (some d) → r.d ≤ d := by
  obtain ⟨s, hpos, _, hsel, _⟩ := findRoute_some_inv fd pos snap r h
  refine ⟨s, hpos, ?_, ?_⟩
  · rcases selectFold_split snap _ _ fd.exits none r hsel with hc | ⟨l1, l2, hs, _, _, hl1, _⟩
    · cases hc
    · exact ⟨l1, l2, hs, hl1⟩
  · exact selectFold_min snap _ _ fd.exits none r hsel

/-- Witness for C6: two exits at equal distance 1; the first declared wins. -/
theorem claim_C6_witness :
    findRoute forkFloor (some "a") [] = some ⟨"x", 1, ["a", "x"]⟩ ∧
    (∃ s, (some "a" : Option String) = some s ∧
      (∃ l1 l2, forkFloor.exits = l1 ++ (Route.mk "x" 1 ["a", "x"]).exitId :: l2 ∧
        ∀ e ∈ l1, snapGet [] e ≠ "exit-blocked" →
          ∀ d, lookE (dijkstra forkFloor s []).1 e = some (some d) →
            (Route.mk "x" 1 ["a", "x"]).d < d) ∧
      ∀ e ∈ forkFloor.exits, snapGet [] e ≠ "exit-blocked" →
        ∀ d, lookE (dijkstra forkFloor s []).1 e = some (some d) →
          (Route.mk "x" 1 ["a", "x"]).d ≤ d) := by
  have h : findRoute forkFloor (some "a") [] = some ⟨"x", 1, ["a", "x"]⟩ := by
    simp [findRoute, dijkstra, dijkstraLoop, extractMin, staleB, relaxOne, selectBest, selectStep,
      mkPath, mkPathAux, prevGet, buildAdjacency, initAdj, initDist, initPrev, pushAdj, setE,
      lookE, delE, snapGet, nodeIsHazardous, ROOM_HAZARD_TYPES, allIds, ltInf, forkFloor]
  exact ⟨h, claim_C6 forkFloor (some "a") [] ⟨"x", 1, ["a", "x"]⟩ h⟩

/-- C7 counterexample: the routing entry point does not distinguish the
no-route reasons in its return value. The awaiting-input case, the
impassable-start case and the all-exits-blocked case all return the very
same value, plain none, so no caller-visible distinct reasons exist. -/
theorem claim_C7_counterexample :
    findRoute lineFloor none [] = none ∧
    findRoute lineFloor (some "a") [("a", "fire")] = none ∧
    findRoute lineFloor (some "a") [("x", "exit-blocked")] = none ∧
    findRoute lineFloor none [] = findRoute lineFloor (some "a") [("a", "fire")] := by
  have h1 : findRoute lineFloor none [] = none := rfl
  have h2 : findRoute lineFloor (some "a") [("a", "fire")] = none :=
    findRoute_none_of_hazStart lineFloor [("a", "fire")] "a" (by decide)
  have h3 : findRoute lineFloor (some "a") [("x", "exit-blocked")] = none := by
    simp [findRoute, dijkstra, dijkstraLoop, extractMin, staleB, relaxOne, selectBest, selectStep,
      mkPath, mkPathAux, prevGet, buildAdjacency, initAdj, initDist, initPrev, pushAdj, setE,
      lookE, delE, snapGet, nodeIsHazardous, ROOM_HAZARD_TYPES, allIds, ltInf, lineFloor]
  exact ⟨h1, h2, h3, by rw [h1, h2]⟩

/-- C7 as amended: findRoute reports every no-route reason with one and the
same value none. No position selected, an impassable start, and failed exit
selection all map to none, so the reasons are not distinguishable from the
returned value alone. -/
theorem claim_C7 (fd : FloorDef) (snap : Snap) (s : String) :
    findRoute fd none snap = none ∧
    (nodeIsHazardous s snap = true → findRoute fd (some s) snap = none) ∧
    (selectBest fd.exits snap (dijkstra fd s snap).1 (dijkstra fd s snap).2 = none →
      findRoute fd (some s) snap = none) := by
  exact ⟨rfl, findRoute_none_of_hazStart fd snap s,
    findRoute_none_of_selectBest_none fd snap s⟩

/-- Witness for the amended C7 at concrete inputs. -/
theorem claim_C7_witness :
    findRoute lineFloor none [("a", "fire")] = none ∧
    findRoute lineFloor (some "a") [("a", "fire")] = none := by
  have h := claim_C7 lineFloor [("a", "fire")] "a"
  exact ⟨h.1, h.2.1 (by decide)⟩

/-- C8: setHaz with a non-empty kind records it for getHaz; setHaz with the
empty (falsy) value removes the key from the per-floor hazard object
entirely, and getHaz then reads the clear value. -/
theorem claim_C8 (haz : List (String × Snap)) (floor id val : String) :
    (val ≠ "" → getHaz (setHaz haz floor id val) floor id = val) ∧
    lookE ((lookE (setHaz haz floor id "") floor).getD []) id = none ∧
    getHaz (setHaz haz floor id "") floor id = "" := by
  refine ⟨?_, ?_, ?_⟩
  · intro hval
    unfold setHaz getHaz
    rw [if_neg hval, lookE_setE_self]
    simp only [Option.getD_some]
    unfold snapGet
    rw [lookE_setE_self]
    rfl
  · unfold setHaz
    rw [if_pos rfl, lookE_setE_self]
    simp only [Option.getD_some]
    exact lookE_delE_self _ id
  · unfold setHaz getHaz
    rw [if_pos rfl, lookE_setE_self]
    simp only [Option.getD_some]
    unfold snapGet
    rw [lookE_delE_self]
    rfl

/-- Witness for C8 at a concrete store, floor, node and kind. -/
theorem claim_C8_witness :
    getHaz (setHaz [] "GF" "kitchen" "fire") "GF" "kitchen" = "fire" ∧
    lookE ((lookE (setHaz [("GF", [("kitchen", "fire")])] "GF" "kitchen" "") "GF").getD [])
      "kitchen" = none ∧
    getHaz (setHaz [("GF", [("kitchen", "fire")])] "GF" "kitchen" "") "GF" "kitchen" = "" := by
  refine ⟨(claim_C8 [] "GF" "kitchen" "fire").1 (by decide), ?_, ?_⟩
  · exact (claim_C8 [("GF", [("kitchen", "fire")])] "GF" "kitchen" "anything").2.1
  · exact (claim_C8 [("GF", [("kitchen", "fire")])] "GF" "kitchen" "anything").2.2

/-- C10: a non-empty start id that is not a declared node yields the normal
no-route outcome; no declared exit ever receives a finite distance because
the unknown start has no adjacency entry. -/
theorem claim_C10 (fd : FloorDef) (snap : Snap) (s : String) (hne : s ≠ "")
    (hnotin : s ∉ allIds fd) :
    findRoute fd (some s) snap = none ∧
    ∀ e ∈ fd.exits, lookE (dijkstra fd s snap).1 e = some none := by
  by_cases hh : nodeIsHazardous s snap = true
  · refine ⟨findRoute_none_of_hazStart fd snap s hh, ?_⟩
    intro e he
    rw [dijkstra_haz fd snap s hh]
    simp [lookE_initDist, mem_allIds_of_exit fd e he]
  · have hh' : nodeIsHazardous s snap = false := by
      cases hb : nodeIsHazardous s snap
      · rfl
      · exact absurd hb hh
    have hadj : lookE (buildAdjacency fd snap) s = none := by
      cases hl : lookE (buildAdjacency fd snap) s with
      | none => rfl
      | some l =>
        exfalso
        exact hnotin ((buildAdjacency_isSome fd snap s).mp (by rw [hl]; rfl))
    have hd : dijkstra fd s snap = (setE (initDist fd) s (some 0), initPrev fd) := by
      unfold dijkstra
      rw [if_neg (by simp [hh'])]
      rw [dijkstraLoop_step (buildAdjacency fd snap) snap
        ⟨setE (initDist fd) s (some 0), initPrev fd, [(s, 0)]⟩ (s, 0) [] rfl]
      have hstale : staleB (setE (initDist fd) s (some 0)) s 0 = false := by
        unfold staleB
        rw [lookE_setE_self]
        rfl
      rw [hstale]
      simp only [Bool.false_eq_true, if_false, hh', hadj]
      simp only [Option.getD_none, List.foldl_nil]
      exact dijkstraLoop_empty _ snap _ _
    have hexitdist : ∀ e ∈ fd.exits, lookE (dijkstra fd s snap).1 e = some none := by
      intro e he
      rw [hd]
      have hes : e ≠ s := fun hcon => hnotin (hcon ▸ mem_allIds_of_exit fd e he)
      simp only
      rw [lookE_setE_ne _ _ _ _ hes, lookE_initDist, if_pos (mem_allIds_of_exit fd e he)]
    refine ⟨?_, hexitdist⟩
    apply findRoute_none_of_selectBest_none
    rw [selectBest_none_iff]
    intro e he
    right
    intro d hcon
    rw [hexitdist e he] at hcon
    cases hcon

/-- Witness for C10 with an undeclared start id. -/
theorem claim_C10_witness :
    ("zz" : String) ≠ "" ∧ "zz" ∉ allIds lineFloor ∧
    findRoute lineFloor (some "zz") [] = none ∧
    ∀ e ∈ lineFloor.exits, lookE (dijkstra lineFloor "zz" []).1 e = some none := by
  have h := claim_C10 lineFloor [] "zz" (by decide) (by decide)
  exact ⟨by decide, by decide, h.1, h.2⟩

/-! Well-formed floors, declared-edge predicate and adjacency membership. -/

/-- Well-formed floor definition: every edge endpoint is a declared node id
and every weight is a positive integer, the documented invariants of the
data model. -/
def WF (fd : FloorDef) : Prop :=
  ∀ e ∈ fd.edges, e.1 ∈ allIds fd ∧ e.2.1 ∈ allIds fd ∧ 1 ≤ e.2.2

/-- A declared edge between a and b of weight w, in either orientation. -/
def edgeW (fd : FloorDef) (a b : String) (w : Nat) : Prop :=
  (a, b, w) ∈ fd.edges ∨ (b, a, w) ∈ fd.edges

/-- Membership of the directed entry (v, w) in the adjacency list of u. -/
def adjMem (adj : List (String × List (String × Nat))) (u v : String) (w : Nat) : Prop :=
  (v, w) ∈ (lookE adj u).getD []

theorem pushAdj_mem_mono (adj : List (String × List (String × Nat))) (k : String)
    (e2 : String × Nat) (u v : String) (w : Nat) (h : adjMem adj u v w) :
    adjMem (pushAdj adj k e2) u v w := by
  unfold pushAdj
  cases hl : lookE adj k with
  | none => exact h
  | some l =>
    unfold adjMem at *
    by_cases hu : u = k
    · subst hu
      rw [lookE_setE_self]
      rw [hl] at h
      simp only [Option.getD_some] at h
      simp only [Option.getD_some]
      exact List.mem_append_left _ h
    · rw [lookE_setE_ne _ _ _ _ hu]
      exact h

theorem pushAdj_mem_self (adj : List (String × List (String × Nat))) (k : String)
    (e2 : String × Nat) (hk : (lookE adj k).isSome = true) :
    adjMem (pushAdj adj k e2) k e2.1 e2.2 := by
  unfold pushAdj
  cases hl : lookE adj k with
  | none => rw [hl] at hk; cases hk
  | some l =>
    unfold adjMem
    rw [lookE_setE_self]
    simp

theorem pushAdj_mem_inv (adj : List (String × List (String × Nat))) (k : String)
    (e2 : String × Nat) (u v : String) (w : Nat)
    (h : adjMem (pushAdj adj k e2) u v w) :
    adjMem adj u v w ∨ (u = k ∧ v = e2.1 ∧ w = e2.2) := by
  unfold pushAdj at h
  cases hl : lookE adj k with
  | none => rw [hl] at h; exact Or.inl h
  | some l =>
    rw [hl] at h
    unfold adjMem at *
    by_cases hu : u = k
    · subst hu
      rw [lookE_setE_self] at h
      simp only [Option.getD_some] at h
      rcases List.mem_append.mp h with h | h
      · rw [hl]
        exact Or.inl h
      · simp only [List.mem_singleton] at h
        subst h
        exact Or.inr ⟨rfl, rfl, rfl⟩
    · rw [lookE_setE_ne _ _ _ _ hu] at h
      exact Or.inl h

theorem foldAddEdge_mem_mono (snap : Snap) :
    ∀ (es : List (String × String × Nat)) (adj : List (String × List (String × Nat)))
      (u v : String) (w : Nat), adjMem adj u v w → adjMem (es.foldl (addEdge snap) adj) u v w := by
  intro es
  induction es with
  | nil => intro adj u v w h; exact h
  | cons e t ih =>
    intro adj u v w h
    rw [List.foldl_cons]
    apply ih
    unfold addEdge
    split
    · exact h
    · exact pushAdj_mem_mono _ _ _ _ _ _ (pushAdj_mem_mono _ _ _ _ _ _ h)

theorem foldAddEdge_mem_inv (snap : Snap) :
    ∀ (es : List (String × String × Nat)) (adj : List (String × List (String × Nat)))
      (u v : String) (w : Nat), adjMem (es.foldl (addEdge snap) adj) u v w →
      adjMem adj u v w ∨ ∃ e ∈ es, nodeIsHazardous e.1 snap = false ∧
        nodeIsHazardous e.2.1 snap = false ∧ w = e.2.2 ∧
        ((u = e.1 ∧ v = e.2.1) ∨ (u = e.2.1 ∧ v = e.1)) := by
  intro es
  induction es with
  | nil => intro adj u v w h; exact Or.inl h
  | cons e t ih =>
    intro adj u v w h
    rw [List.foldl_cons] at h
    rcases ih (addEdge snap adj e) u v w h with h2 | ⟨e2, he2, h2⟩
    · unfold addEdge at h2
      by_cases hz : (nodeIsHazardous e.1 snap || nodeIsHazardous e.2.1 snap) = true
      · rw [if_pos hz] at h2
        exact Or.inl h2
      · rw [if_neg hz] at h2
        simp only [Bool.or_eq_true, not_or, Bool.not_eq_true] at hz
        rcases pushAdj_mem_inv _ _ _ _ _ _ h2 with h3 | ⟨hu, hv, hw⟩
        · rcases pushAdj_mem_inv _ _ _ _ _ _ h3 with h4 | ⟨hu, hv, hw⟩
          · exact Or.inl h4
          · exact Or.inr ⟨e, by simp, hz.1, hz.2, hw, Or.inl ⟨hu, hv⟩⟩
        · exact Or.inr ⟨e, by simp, hz.1, hz.2, hw, Or.inr ⟨hu, hv⟩⟩
    · exact Or.inr ⟨e2, by simp [he2], h2⟩

theorem adjMem_empty_init (fd : FloorDef) (u v : String) (w : Nat)
    (h : adjMem (initAdj fd) u v w) : False := by
  unfold adjMem at h
  rw [lookE_initAdj] at h
  by_cases hu : u ∈ allIds fd
  · rw [if_pos hu] at h
    simp at h
  · rw [if_neg hu] at h
    simp at h

/-- Soundness of the traversable adjacency: every entry comes from a declared
edge both of whose endpoints are passable under the snapshot. -/
theorem adj_sound (fd : FloorDef) (snap : Snap) (u v : String) (w : Nat)
    (h : adjMem (buildAdjacency fd snap) u v w) :
    edgeW fd u v w ∧ nodeIsHazardous u snap = false ∧ nodeIsHazardous v snap = false := by
  unfold buildAdjacency at h
  rcases foldAddEdge_mem_inv snap fd.edges (initAdj fd) u v w h with h | ⟨e, he, h1, h2, hw, hd⟩
  · exact absurd h (fun hh => adjMem_empty_init fd u v w hh)
  · rcases hd with ⟨hu, hv⟩ | ⟨hu, hv⟩
    · subst hu; subst hv; subst hw
      exact ⟨Or.inl (by simpa using he), h1, h2⟩
    · subst hu; subst hv; subst hw
      exact ⟨Or.inr (by simpa using he), h2, h1⟩

/-- Completeness of the traversable adjacency on well-formed floors: a
declared edge with two passable endpoints yields both directed entries. -/
theorem adj_complete (fd : FloorDef) (snap : Snap) (hWF : WF fd) (a b : String) (w : Nat)
    (he : (a, b, w) ∈ fd.edges) (ha : nodeIsHazardous a snap = false)
    (hb : nodeIsHazardous b snap = false) :
    adjMem (buildAdjacency fd snap) a b w ∧ adjMem (buildAdjacency fd snap) b a w := by
  have hmem := hWF (a, b, w) he
  have hkeys : ∀ (es : List (String × String × Nat))
      (adj : List (String × List (String × Nat))) (v : String),
      (lookE (es.foldl (addEdge snap) adj) v).isSome = (lookE adj v).isSome :=
    fun es adj v => foldAddEdge_isSome snap v es adj
  unfold buildAdjacency
  have main : ∀ (es : List (String × String × Nat))
      (adj : List (String × List (String × Nat))),
      (a, b, w) ∈ es → (lookE adj a).isSome = true → (lookE adj b).isSome = true →
      adjMem (es.foldl (addEdge snap) adj) a b w ∧ adjMem (es.foldl (addEdge snap) adj) b a w := by
    intro es
    induction es with
    | nil => intro adj hin; cases hin
    | cons e t ih =>
      intro adj hin hka hkb
      rcases List.mem_cons.mp hin with hin | hin
      · subst hin
        rw [List.foldl_cons]
        constructor
        · apply foldAddEdge_mem_mono
          unfold addEdge
          rw [if_neg (by simp [ha, hb])]
          apply pushAdj_mem_mono
          exact pushAdj_mem_self adj a (b, w) hka
        · apply foldAddEdge_mem_mono
          unfold addEdge
          rw [if_neg (by simp [ha, hb])]
          apply pushAdj_mem_self
          rw [pushAdj_isSome]
          exact hkb
      · rw [List.foldl_cons]
        apply ih (addEdge snap adj e) hin
        · unfold addEdge
          split
          · exact hka
          · rw [pushAdj_isSome, pushAdj_isSome]; exact hka
        · unfold addEdge
          split
          · exact hkb
          · rw [pushAdj_isSome, pushAdj_isSome]; exact hkb
  apply main fd.edges (initAdj fd) he
  · rw [lookE_initAdj, if_pos hmem.1]; rfl
  · rw [lookE_initAdj, if_pos hmem.2.1]; rfl

/-- Any adjacency entry of a well-formed floor names declared nodes and a
positive weight. -/
theorem adjMem_decl (fd : FloorDef) (snap : Snap) (hWF : WF fd) (u v : String) (w : Nat)
    (h : adjMem (buildAdjacency fd snap) u v w) :
    u ∈ allIds fd ∧ v ∈ allIds fd ∧ 1 ≤ w := by
  obtain ⟨hedge, _, _⟩ := adj_sound fd snap u v w h
  rcases hedge with he | he
  · obtain ⟨h1, h2, h3⟩ := hWF (u, v, w) he
    exact ⟨h1, h2, h3⟩
  · obtain ⟨h1, h2, h3⟩ := hWF (v, u, w) he
    exact ⟨h2, h1, h3⟩

/-! Hazard-free weighted paths of a floor graph. -/

/-- Weighted path along declared edges: a node sequence together with the sum
of the weights of the traversed edges. -/
inductive PathW (fd : FloorDef) : List String → Nat → Prop where
  | single (v : String) : PathW fd [v] 0
  | cons {a b : String} {w n : Nat} {l : List String} (he : edgeW fd a b w)
      (hp : PathW fd (b :: l) n) : PathW fd (a :: b :: l) (w + n)

/-- Every node of the list is passable under the snapshot. -/
def hazFreeL (snap : Snap) (l : List String) : Prop :=
  ∀ x ∈ l, nodeIsHazardous x snap = false

/-- A hazard-free path from a to b of total weight n. -/
def IsPath (fd : FloorDef) (snap : Snap) (l : List String) (a b : String) (n : Nat) : Prop :=
  PathW fd l n ∧ l.head? = some a ∧ l.getLast? = some b ∧ hazFreeL snap l

theorem PathW_append (fd : FloorDef) {l : List String} {n : Nat} (h : PathW fd l n) :
    ∀ {b v : String} {w : Nat}, l.getLast? = some b → edgeW fd b v w →
      PathW fd (l ++ [v]) (n + w) := by
  induction h with
  | single a =>
    intro b v w hlast he
    simp only [List.getLast?_singleton, Option.some.injEq] at hlast
    subst hlast
    have := PathW.cons he (@PathW.single fd v)
    simpa [Nat.add_comm] using this
  | cons he2 hp ih =>
    intro b v w hlast he
    rename_i a b2 w2 n2 l2
    have hlast2 : (b2 :: l2).getLast? = some b := by
      rw [List.getLast?_cons_cons] at hlast
      exact hlast
    have := PathW.cons he2 (ih hlast2 he)
    simpa [Nat.add_assoc] using this

theorem PathW_head_ne_nil (fd : FloorDef) {l : List String} {n : Nat} (h : PathW fd l n) :
    l ≠ [] := by
  cases h <;> simp

/-! The dijkstra loop invariant. -/

/-- Queue-independent part of the loop invariant, tying dist and prev to the
floor, snapshot, start node and traversable adjacency. -/
structure InvB (fd : FloorDef) (snap : Snap) (s : String)
    (adj : List (String × List (String × Nat)))
    (dist : List (String × Option Nat)) (prev : List (String × Option String)) : Prop where
  distKeys : ∀ v, (lookE dist v).isSome = true ↔ (v ∈ allIds fd ∨ v = s)
  prevKeys : ∀ v, (lookE prev v).isSome = true ↔ v ∈ allIds fd
  distNodup : (dist.map Prod.fst).Nodup
  distStart : lookE dist s = some (some 0)
  prevStart : ∀ o, lookE prev s = some o → o = none
  chain : ∀ v u, lookE prev v = some (some u) →
    ∃ du dv w, lookE dist u = some (some du) ∧ lookE dist v = some (some dv) ∧
      1 ≤ w ∧ adjMem adj u v w ∧ du + w ≤ dv
  finHaz : ∀ v dv, lookE dist v = some (some dv) → nodeIsHazardous v snap = false
  finOrigin : ∀ v dv, lookE dist v = some (some dv) → v = s ∨ ∃ u, lookE prev v = some (some u)

/-- Every queue entry refers to a finite recorded distance bounded by its
priority (priorities are distances at push time and distances only shrink). -/
def PqD (dist : List (String × Option Nat)) (pq : List (String × Nat)) : Prop :=
  ∀ p ∈ pq, ∃ dv, lookE dist p.1 = some (some dv) ∧ dv ≤ p.2

/-- Frontier property of one node: a finite passable node either still has a
queue entry carrying its current distance, or all its adjacency entries are
fully relaxed. -/
def FrontierP (snap : Snap) (adj : List (String × List (String × Nat)))
    (dist : List (String × Option Nat)) (pq : List (String × Nat)) (u : String) : Prop :=
  ∀ du, lookE dist u = some (some du) → nodeIsHazardous u snap = false →
    (u, du) ∈ pq ∨ ∀ v w, adjMem adj u v w → nodeIsHazardous v snap = false →
      ∃ dv, lookE dist v = some (some dv) ∧ dv ≤ du + w

/-- Full loop invariant. -/
def LoopInv (fd : FloorDef) (snap : Snap) (s : String)
    (adj : List (String × List (String × Nat)))
    (dist : List (String × Option Nat)) (prev : List (String × Option String))
    (pq : List (String × Nat)) : Prop :=
  InvB fd snap s adj dist prev ∧ PqD dist pq ∧ ∀ u, FrontierP snap adj dist pq u

theorem setE_nodupKeys {α : Type} (m : List (String × α)) (k : String) (v : α)
    (h : (m.map Prod.fst).Nodup) : ((setE m k v).map Prod.fst).Nodup := by
  unfold setE
  simp only [List.map_cons, List.nodup_cons]
  constructor
  · intro hmem
    simp only [List.mem_map] at hmem
    obtain ⟨p, hp, hpk⟩ := hmem
    have := List.of_mem_filter hp
    simp only [decide_eq_true_eq] at this
    exact this hpk
  · have hsub : (m.filter (fun p => decide (p.1 ≠ k))).map Prod.fst |>.Sublist (m.map Prod.fst) :=
      (List.filter_sublist m).map _
    exact h.sublist hsub

theorem foldl_setE_nodupKeys {α : Type} :
    ∀ (l : List String) (m : List (String × α)) (c : α), (m.map Prod.fst).Nodup →
      (((l.foldl (fun m id => setE m id c) m)).map Prod.fst).Nodup := by
  intro l
  induction l with
  | nil => intro m c h; exact h
  | cons a t ih =>
    intro m c h
    rw [List.foldl_cons]
    exact ih (setE m a c) c (setE_nodupKeys m a c h)

theorem lookE_isSome_mem {α : Type} (m : List (String × α)) (v : String)
    (h : (lookE m v).isSome = true) : v ∈ m.map Prod.fst := by
  induction m with
  | nil => simp [lookE] at h
  | cons p t ih =>
    obtain ⟨k, x⟩ := p
    by_cases hk : k = v
    · subst hk
      simp
    · simp only [lookE, if_neg hk] at h
      simp only [List.map_cons, List.mem_cons]
      exact Or.inr (ih h)

/-! Preservation of the invariant by relaxation. -/

/-- Conclusions about the state after relaxing the adjacency entries of u. -/
structure FoldRes (fd : FloorDef) (snap : Snap) (s : String)
    (adj : List (String × List (String × Nat))) (u : String) (du : Nat)
    (l : List (String × Nat)) (st0 st1 : DState) : Prop where
  invB : InvB fd snap s adj st1.dist st1.prev
  pqd : PqD st1.dist st1.pq
  frontierX : ∀ x, x ≠ u → FrontierP snap adj st1.dist st1.pq x
  distU : lookE st1.dist u = some (some du)
  pqMono : ∀ p ∈ st0.pq, p ∈ st1.pq
  distMono : ∀ v dv, lookE st0.dist v = some (some dv) →
    ∃ dv2, lookE st1.dist v = some (some dv2) ∧ dv2 ≤ dv
  relaxedAll : ∀ e ∈ l, nodeIsHazardous e.1 snap = false →
    ∃ dv, lookE st1.dist e.1 = some (some dv) ∧ dv ≤ du + e.2

theorem relaxOne_spec (fd : FloorDef) (snap : Snap) (s : String)
    (adj : List (String × List (String × Nat)))
    (hDecl : ∀ u1 v1 w1, adjMem adj u1 v1 w1 → u1 ∈ allIds fd ∧ v1 ∈ allIds fd ∧ 1 ≤ w1)
    (u : String) (du : Nat) (e : String × Nat) (st0 : DState)
    (hB : InvB fd snap s adj st0.dist st0.prev) (hP : PqD st0.dist st0.pq)
    (hF : ∀ x, x ≠ u → FrontierP snap adj st0.dist st0.pq x)
    (hU : lookE st0.dist u = some (some du))
    (hE : adjMem adj u e.1 e.2) :
    FoldRes fd snap s adj u du [e] st0 (relaxOne snap u du st0 e) := by
  obtain ⟨hto_decl, hw1⟩ := (hDecl u e.1 e.2 hE).2
  by_cases hz : nodeIsHazardous e.1 snap = true
  · have hid : relaxOne snap u du st0 e = st0 := by
      unfold relaxOne
      rw [if_pos hz]
    rw [hid]
    refine ⟨hB, hP, hF, hU, fun p hp => hp, fun v dv h => ⟨dv, h, le_refl _⟩, ?_⟩
    intro e2 he2 hz2
    rw [List.mem_singleton] at he2
    subst he2
    rw [hz2] at hz
    cases hz
  · have hz' : nodeIsHazardous e.1 snap = false := by
      cases hb : nodeIsHazardous e.1 snap
      · rfl
      · exact absurd hb hz
    cases hdc : lookE st0.dist e.1 with
    | none =>
      exfalso
      have : (lookE st0.dist e.1).isSome = true := (hB.distKeys e.1).mpr (Or.inl hto_decl)
      rw [hdc] at this
      cases this
    | some dcur =>
      by_cases hlt : ltInf (du + e.2) dcur = true
      · have hne_to_u : e.1 ≠ u := by
          intro hcon
          rw [hcon, hU] at hdc
          injection hdc with hdc2
          subst hdc2
          simp only [ltInf, decide_eq_true_eq] at hlt
          omega
        have hne_to_s : e.1 ≠ s := by
          intro hcon
          rw [hcon, hB.distStart] at hdc
          injection hdc with hdc2
          subst hdc2
          simp only [ltInf, decide_eq_true_eq] at hlt
          omega
        have hid : relaxOne snap u du st0 e =
            ⟨setE st0.dist e.1 (some (du + e.2)), setE st0.prev e.1 (some u),
              st0.pq ++ [(e.1, du + e.2)]⟩ := by
          unfold relaxOne
          rw [if_neg hz, hdc]
          dsimp only
          rw [if_pos hlt]
        rw [hid]
        have hlookFin : ∀ v dv2, lookE (setE st0.dist e.1 (some (du + e.2))) v =
            some (some dv2) → (v = e.1 ∧ dv2 = du + e.2) ∨
            (v ≠ e.1 ∧ lookE st0.dist v = some (some dv2)) := by
          intro v dv2 hv
          by_cases hve : v = e.1
          · subst hve
            rw [lookE_setE_self] at hv
            injection hv with hv2
            injection hv2 with hv3
            exact Or.inl ⟨rfl, hv3.symm⟩
          · rw [lookE_setE_ne _ _ _ _ hve] at hv
            exact Or.inr ⟨hve, hv⟩
        have hmono : ∀ v dv, lookE st0.dist v = some (some dv) →
            ∃ dv2, lookE (setE st0.dist e.1 (some (du + e.2))) v = some (some dv2) ∧
              dv2 ≤ dv := by
          intro v dv hv
          by_cases hve : v = e.1
          · subst hve
            rw [hv] at hdc
            injection hdc with hdc2
            subst hdc2
            simp only [ltInf, decide_eq_true_eq] at hlt
            exact ⟨du + e.2, lookE_setE_self _ _ _, Nat.le_of_lt hlt⟩
          · exact ⟨dv, by rw [lookE_setE_ne _ _ _ _ hve]; exact hv, le_refl _⟩
        refine ⟨?_, ?_, ?_, ?_, ?_, hmono, ?_⟩
        · refine ⟨?_, ?_, ?_, ?_, ?_, ?_, ?_, ?_⟩
          · intro v
            by_cases hve : v = e.1
            · subst hve
              rw [lookE_setE_self]
              simp [hto_decl]
            · rw [lookE_setE_ne _ _ _ _ hve]
              exact hB.distKeys v
          · intro v
            by_cases hve : v = e.1
            · subst hve
              rw [lookE_setE_self]
              simp [hto_decl]
            · rw [lookE_setE_ne _ _ _ _ hve]
              exact hB.prevKeys v
          · exact setE_nodupKeys _ _ _ hB.distNodup
          · rw [lookE_setE_ne _ _ _ _ (fun hcon => hne_to_s hcon.symm)]
            exact hB.distStart
          · intro o ho
            rw [lookE_setE_ne _ _ _ _ (fun hcon => hne_to_s hcon.symm)] at ho
            exact hB.prevStart o ho
          · intro v u2 hv
            by_cases hve : v = e.1
            · subst hve
              rw [lookE_setE_self] at hv
              injection hv with hv2
              injection hv2 with hv3
              subst hv3
              refine ⟨du, du + e.2, e.2, ?_, lookE_setE_self _ _ _, hw1, hE, le_refl _⟩
              rw [lookE_setE_ne _ _ _ _ (Ne.symm hne_to_u)]
              exact hU
            · rw [lookE_setE_ne _ _ _ _ hve] at hv
              obtain ⟨du0, dv0, w0, hu0, hv0, hw0, hadj0, hle0⟩ := hB.chain v u2 hv
              by_cases hue : u2 = e.1
              · subst hue
                rw [hu0] at hdc
                injection hdc with hdc2
                subst hdc2
                simp only [ltInf, decide_eq_true_eq] at hlt
                refine ⟨du + e.2, dv0, w0, lookE_setE_self _ _ _, ?_, hw0, hadj0, ?_⟩
                · rw [lookE_setE_ne _ _ _ _ hve]
                  exact hv0
                · omega
              · refine ⟨du0, dv0, w0, ?_, ?_, hw0, hadj0, hle0⟩
                · rw [lookE_setE_ne _ _ _ _ hue]
                  exact hu0
                · rw [lookE_setE_ne _ _ _ _ hve]
                  exact hv0
          · intro v dv hv
            rcases hlookFin v dv hv with ⟨hve, _⟩ | ⟨hve, hv2⟩
            · subst hve
              exact hz'
            · exact hB.finHaz v dv hv2
          · intro v dv hv
            rcases hlookFin v dv hv with ⟨hve, _⟩ | ⟨hve, hv2⟩
            · subst hve
              exact Or.inr ⟨u, lookE_setE_self _ _ _⟩
            · rcases hB.finOrigin v dv hv2 with h | ⟨u0, hu0⟩
              · exact Or.inl h
              · exact Or.inr ⟨u0, by rw [lookE_setE_ne _ _ _ _ hve]; exact hu0⟩
        · intro p hp
          rcases List.mem_append.mp hp with hp | hp
          · obtain ⟨dv0, hl0, hle0⟩ := hP p hp
            obtain ⟨dv2, hl2, hle2⟩ := hmono p.1 dv0 hl0
            exact ⟨dv2, hl2, le_trans hle2 hle0⟩
          · rw [List.mem_singleton] at hp
            subst hp
            exact ⟨du + e.2, lookE_setE_self _ _ _, le_refl _⟩
        · intro x hx dx hdx hxhaz
          rcases hlookFin x dx hdx with ⟨hve, hdv⟩ | ⟨hve, hv2⟩
          · subst hve
            subst hdv
            left
            exact List.mem_append_right _ (by simp)
          · rcases hF x hx dx hv2 hxhaz with h1 | h2
            · left
              exact List.mem_append_left _ h1
            · right
              intro v w hvw hvhaz
              obtain ⟨dv0, hl0, hle0⟩ := h2 v w hvw hvhaz
              obtain ⟨dv2, hl2, hle2⟩ := hmono v dv0 hl0
              exact ⟨dv2, hl2, le_trans hle2 hle0⟩
        · rw [lookE_setE_ne _ _ _ _ (fun hcon => hne_to_u hcon.symm)]
          exact hU
        · intro p hp
          exact List.mem_append_left _ hp
        · intro e2 he2 _
          rw [List.mem_singleton] at he2
          subst he2
          exact ⟨du + e2.2, lookE_setE_self _ _ _, le_refl _⟩
      · have hid : relaxOne snap u du st0 e = st0 := by
          unfold relaxOne
          rw [if_neg hz, hdc]
          dsimp only
          rw [if_neg hlt]
        rw [hid]
        refine ⟨hB, hP, hF, hU, fun p hp => hp, fun v dv h => ⟨dv, h, le_refl _⟩, ?_⟩
        intro e2 he2 _
        rw [List.mem_singleton] at he2
        subst he2
        cases dcur with
        | none => simp [ltInf] at hlt
        | some dv0 =>
          simp only [ltInf, decide_eq_true_eq, Nat.not_lt] at hlt
          exact ⟨dv0, hdc, hlt⟩

theorem relaxFold_spec (fd : FloorDef) (snap : Snap) (s : String)
    (adj : List (String × List (String × Nat)))
    (hDecl : ∀ u1 v1 w1, adjMem adj u1 v1 w1 → u1 ∈ allIds fd ∧ v1 ∈ allIds fd ∧ 1 ≤ w1)
    (u : String) (du : Nat) :
    ∀ (l : List (String × Nat)) (st0 : DState),
      InvB fd snap s adj st0.dist st0.prev → PqD st0.dist st0.pq →
      (∀ x, x ≠ u → FrontierP snap adj st0.dist st0.pq x) →
      lookE st0.dist u = some (some du) →
      (∀ e ∈ l, adjMem adj u e.1 e.2) →
      FoldRes fd snap s adj u du l st0 (l.foldl (relaxOne snap u du) st0) := by
  intro l
  induction l with
  | nil =>
    intro st0 hB hP hF hU hL
    exact ⟨hB, hP, hF, hU, fun p hp => hp, fun v dv h => ⟨dv, h, le_refl _⟩,
      fun e he => absurd he (List.not_mem_nil e)⟩
  | cons e t ih =>
    intro st0 hB hP hF hU hL
    rw [List.foldl_cons]
    have step := relaxOne_spec fd snap s adj hDecl u du e st0 hB hP hF hU (hL e (by simp))
    have rest := ih (relaxOne snap u du st0 e) step.invB step.pqd step.frontierX step.distU
      (fun e2 he2 => hL e2 (by simp [he2]))
    refine ⟨rest.invB, rest.pqd, rest.frontierX, rest.distU, ?_, ?_, ?_⟩
    · intro p hp
      exact rest.pqMono p (step.pqMono p hp)
    · intro v dv h
      obtain ⟨dv1, h1, hle1⟩ := step.distMono v dv h
      obtain ⟨dv2, h2, hle2⟩ := rest.distMono v dv1 h1
      exact ⟨dv2, h2, le_trans hle2 hle1⟩
    · intro e2 he2 hz2
      rcases List.mem_cons.mp he2 with he2 | he2
      · subst he2
        obtain ⟨dv1, h1, hle1⟩ := step.relaxedAll e2 (by simp) hz2
        obtain ⟨dv2, h2, hle2⟩ := rest.distMono e2.1 dv1 h1
        exact ⟨dv2, h2, le_trans hle2 hle1⟩
      · exact rest.relaxedAll e2 he2 hz2

theorem mem_of_extractMin_ne {pq pq' : List (String × Nat)} {a p : String × Nat}
    (h : extractMin pq = some (a, pq')) (hp : p ∈ pq) (hne : p ≠ a) : p ∈ pq' := by
  have hperm := extractMin_perm pq a pq' h
  rcases List.mem_cons.mp (hperm.mem_iff.mp hp) with h2 | h2
  · exact absurd h2 hne
  · exact h2

theorem mem_of_extractMin_sub {pq pq' : List (String × Nat)} {a p : String × Nat}
    (h : extractMin pq = some (a, pq')) (hp : p ∈ pq') : p ∈ pq := by
  have hperm := extractMin_perm pq a pq' h
  exact hperm.mem_iff.mpr (List.mem_cons_of_mem a hp)

theorem staleB_true_shape (dist : List (String × Option Nat)) (u : String) (du : Nat)
    (h : staleB dist u du = true) : ∃ dv, lookE dist u = some (some dv) ∧ dv < du := by
  unfold staleB at h
  cases hl : lookE dist u with
  | none => rw [hl] at h; cases h
  | some o =>
    cases o with
    | none => rw [hl] at h; cases h
    | some dv =>
      rw [hl] at h
      simp only [decide_eq_true_eq] at h
      exact ⟨dv, rfl, h⟩

theorem staleB_false_ge (dist : List (String × Option Nat)) (u : String) (du dv : Nat)
    (h : staleB dist u du = false) (hl : lookE dist u = some (some dv)) : du ≤ dv := by
  unfold staleB at h
  rw [hl] at h
  simp only [decide_eq_false_iff_not, Nat.not_lt] at h
  exact h

/-- Main preservation theorem: from any state satisfying the loop invariant,
the dijkstra loop ends in a state satisfying it with an empty queue. -/
theorem dijkstraLoop_inv (fd : FloorDef) (s : String)
    (adj : List (String × List (String × Nat))) (snap : Snap)
    (hDecl : ∀ u1 v1 w1, adjMem adj u1 v1 w1 → u1 ∈ allIds fd ∧ v1 ∈ allIds fd ∧ 1 ≤ w1) :
    ∀ st : DState, LoopInv fd snap s adj st.dist st.prev st.pq →
      LoopInv fd snap s adj (dijkstraLoop adj snap st).1 (dijkstraLoop adj snap st).2 [] := by
  refine dijkstraLoop.induct adj snap
    (fun st => LoopInv fd snap s adj st.dist st.prev st.pq →
      LoopInv fd snap s adj (dijkstraLoop adj snap st).1 (dijkstraLoop adj snap st).2 [])
    ?_ ?_ ?_ ?_
  · intro st hpq hInv
    have hnil : st.pq = [] := extractMin_eq_none.mp hpq
    have hloop : dijkstraLoop adj snap st = (st.dist, st.prev) := by
      rw [dijkstraLoop]
      split
      · rfl
      · rename_i ud pq2 heq
        rw [hpq] at heq
        cases heq
    rw [hloop]
    obtain ⟨hB, hP, hF⟩ := hInv
    refine ⟨hB, fun p hp => absurd hp (List.not_mem_nil p), ?_⟩
    intro x dx hdx hxz
    rcases hF x dx hdx hxz with h1 | h2
    · rw [hnil] at h1
      cases h1
    · exact Or.inr h2
  · intro st ud pq' hpq hstale ih hInv
    obtain ⟨hB, hP, hF⟩ := hInv
    have hloop := dijkstraLoop_step adj snap st ud pq' hpq
    rw [if_pos hstale] at hloop
    rw [hloop]
    apply ih
    obtain ⟨dv0, hdv0, hlt0⟩ := staleB_true_shape st.dist ud.1 ud.2 hstale
    refine ⟨hB, ?_, ?_⟩
    · intro p hp
      exact hP p (mem_of_extractMin_sub hpq hp)
    · intro x dx hdx hxz
      rcases hF x dx hdx hxz with h1 | h2
      · left
        refine mem_of_extractMin_ne hpq h1 ?_
        intro hcon
        have hx1 : x = ud.1 := congrArg Prod.fst hcon
        have hd1 : dx = ud.2 := congrArg Prod.snd hcon
        rw [hx1] at hdx
        have hdx' : lookE st.dist ud.1 = some (some dx) := hdx
        rw [hdv0] at hdx'
        injection hdx' with hdx2
        injection hdx2 with hdx3
        omega
      · exact Or.inr h2
  · intro st ud pq' hpq hstale hhaz ih hInv
    obtain ⟨hB, hP, hF⟩ := hInv
    have hstale2 : staleB st.dist ud.1 ud.2 = false := by
      cases hb : staleB st.dist ud.1 ud.2
      · rfl
      · exact absurd hb hstale
    have hloop := dijkstraLoop_step adj snap st ud pq' hpq
    simp only [hstale2, Bool.false_eq_true, if_false, hhaz, if_true] at hloop
    rw [hloop]
    apply ih
    refine ⟨hB, ?_, ?_⟩
    · intro p hp
      exact hP p (mem_of_extractMin_sub hpq hp)
    · intro x dx hdx hxz
      rcases hF x dx hdx hxz with h1 | h2
      · left
        refine mem_of_extractMin_ne hpq h1 ?_
        intro hcon
        have hx1 : x = ud.1 := congrArg Prod.fst hcon
        rw [hx1] at hxz
        rw [hxz] at hhaz
        cases hhaz
      · exact Or.inr h2
  · intro st ud pq' hpq hstale hhaz ih hInv
    obtain ⟨hB, hP, hF⟩ := hInv
    have hstale2 : staleB st.dist ud.1 ud.2 = false := by
      cases hb : staleB st.dist ud.1 ud.2
      · rfl
      · exact absurd hb hstale
    have hhaz2 : nodeIsHazardous ud.1 snap = false := by
      cases hb : nodeIsHazardous ud.1 snap
      · rfl
      · exact absurd hb hhaz
    have hloop := dijkstraLoop_step adj snap st ud pq' hpq
    simp only [hstale2, hhaz2, Bool.false_eq_true, if_false] at hloop
    rw [hloop]
    apply ih
    have hudmem : ud ∈ st.pq := by
      have hperm := extractMin_perm st.pq ud pq' hpq
      exact hperm.mem_iff.mpr (by simp)
    obtain ⟨dv0, hdv0, hle0⟩ := hP ud hudmem
    have hdu : lookE st.dist ud.1 = some (some ud.2) := by
      have := staleB_false_ge st.dist ud.1 ud.2 dv0 hstale2 hdv0
      have heq : dv0 = ud.2 := Nat.le_antisymm hle0 this
      rw [heq] at hdv0
      exact hdv0
    have hP2 : PqD st.dist pq' := fun p hp => hP p (mem_of_extractMin_sub hpq hp)
    have hF2 : ∀ x, x ≠ ud.1 → FrontierP snap adj st.dist pq' x := by
      intro x hx dx hdx hxz
      rcases hF x dx hdx hxz with h1 | h2
      · left
        refine mem_of_extractMin_ne hpq h1 ?_
        intro hcon
        exact hx (congrArg Prod.fst hcon)
      · exact Or.inr h2
    have hL : ∀ e ∈ (lookE adj ud.1).getD [], adjMem adj ud.1 e.1 e.2 := by
      intro e he
      exact he
    have fold := relaxFold_spec fd snap s adj hDecl ud.1 ud.2 ((lookE adj ud.1).getD [])
      ⟨st.dist, st.prev, pq'⟩ hB hP2 hF2 hdu hL
    refine ⟨fold.invB, fold.pqd, ?_⟩
    intro x dx hdx hxz
    by_cases hx : x = ud.1
    · subst hx
      right
      intro v w hvw hvz
      rw [fold.distU] at hdx
      injection hdx with hdx2
      injection hdx2 with hdx3
      subst hdx3
      exact fold.relaxedAll (v, w) hvw hvz
    · exact fold.frontierX x hx dx hdx hxz

theorem nodup_subset_length {l : List String} (hn : l.Nodup) (l2 : List String)
    (hsub : ∀ x ∈ l, x ∈ l2) : l.length ≤ l2.length := by
  have h1 : l.toFinset.card = l.length := List.toFinset_card_of_nodup hn
  have h2 : l.toFinset ⊆ l2.toFinset := by
    intro x hx
    rw [List.mem_toFinset]
    exact hsub x (List.mem_toFinset.mp hx)
  calc l.length = l.toFinset.card := h1.symm
    _ ≤ l2.toFinset.card := Finset.card_le_card h2
    _ ≤ l2.length := l2.toFinset_card_le

theorem mem_lookE_isSome {α : Type} (m : List (String × α)) (v : String)
    (h : v ∈ m.map Prod.fst) : (lookE m v).isSome = true := by
  induction m with
  | nil => cases h
  | cons p t ih =>
    obtain ⟨k, x⟩ := p
    by_cases hk : k = v
    · subst hk
      simp [lookE]
    · simp only [lookE, if_neg hk]
      simp only [List.map_cons, List.mem_cons] at h
      rcases h with h | h
    
      · exact absurd h.symm hk
      · exact ih h

/-- The invariant holds when dijkstra enters its loop. -/
theorem dijkstra_init_inv (fd : FloorDef) (snap : Snap) (s : String)
    (hs : nodeIsHazardous s snap = false) :
    LoopInv fd snap s (buildAdjacency fd snap) (setE (initDist fd) s (some 0)) (initPrev fd)
      [(s, 0)] := by
  have hlook1 : ∀ v, lookE (setE (initDist fd) s (some 0)) v =
      if v = s then some (some 0) else (if v ∈ allIds fd then some none else none) := by
    intro v
    by_cases hv : v = s
    · subst hv
      rw [lookE_setE_self, if_pos rfl]
    · rw [lookE_setE_ne _ _ _ _ hv, if_neg hv, lookE_initDist]
  have hfinS : ∀ v dv, lookE (setE (initDist fd) s (some 0)) v = some (some dv) →
      v = s ∧ dv = 0 := by
    intro v dv hv
    rw [hlook1] at hv
    by_cases hvs : v = s
    · rw [if_pos hvs] at hv
      injection hv with hv2
      injection hv2 with hv3
      exact ⟨hvs, hv3.symm⟩
    · rw [if_neg hvs] at hv
      by_cases hvm : v ∈ allIds fd
      · rw [if_pos hvm] at hv
        injection hv with hv2
        cases hv2
      · rw [if_neg hvm] at hv
        cases hv
  refine ⟨⟨?_, ?_, ?_, ?_, ?_, ?_, ?_, ?_⟩, ?_, ?_⟩
  · intro v
    rw [hlook1]
    by_cases hv : v = s
    · simp [hv]
    · by_cases hvm : v ∈ allIds fd <;> simp [hv, hvm]
  · intro v
    rw [lookE_initPrev]
    by_cases hvm : v ∈ allIds fd <;> simp [hvm]
  · exact setE_nodupKeys _ _ _ (foldl_setE_nodupKeys (allIds fd) [] none (by simp))
  · exact lookE_setE_self _ _ _
  · intro o ho
    rw [lookE_initPrev] at ho
    by_cases hm : s ∈ allIds fd
    · rw [if_pos hm] at ho
      injection ho with ho2
      exact ho2.symm
    · rw [if_neg hm] at ho
      cases ho
  · intro v u hv
    rw [lookE_initPrev] at hv
    by_cases hm : v ∈ allIds fd
    · rw [if_pos hm] at hv
      injection hv with hv2
      cases hv2
    · rw [if_neg hm] at hv
      cases hv
  · intro v dv hv
    obtain ⟨hvs, _⟩ := hfinS v dv hv
    subst hvs
    exact hs
  · intro v dv hv
    exact Or.inl (hfinS v dv hv).1
  · intro p hp
    rw [List.mem_singleton] at hp
    subst hp
    exact ⟨0, lookE_setE_self _ _ _, le_refl _⟩
  · intro x dx hdx hxz
    obtain ⟨hxs, hdx0⟩ := hfinS x dx hdx
    subst hxs
    subst hdx0
    exact Or.inl (by simp)

/-- The loop invariant holds of the final dist and prev maps of dijkstra,
for a passable start on a well-formed floor. -/
theorem dijkstra_inv (fd : FloorDef) (snap : Snap) (s : String) (hWF : WF fd)
    (hs : nodeIsHazardous s snap = false) :
    LoopInv fd snap s (buildAdjacency fd snap) (dijkstra fd s snap).1 (dijkstra fd s snap).2
      [] := by
  unfold dijkstra
  rw [if_neg (by rw [hs]; exact Bool.false_ne_true)]
  exact dijkstraLoop_inv fd s (buildAdjacency fd snap) snap
    (fun u1 v1 w1 h => adjMem_decl fd snap hWF u1 v1 w1 h)
    ⟨setE (initDist fd) s (some 0), initPrev fd, [(s, 0)]⟩
    (dijkstra_init_inv fd snap s hs)

/-- On the final state, the recorded distance of the end of any hazard-free
declared path is bounded by the recorded distance of its head plus the path
weight: no relaxable edge remains. -/
theorem final_upperBound (fd : FloorDef) (snap : Snap) (s : String)
    (dist : List (String × Option Nat)) (prev : List (String × Option String)) (hWF : WF fd)
    (hInv : LoopInv fd snap s (buildAdjacency fd snap) dist prev []) :
    ∀ (l : List String) (n : Nat), PathW fd l n → hazFreeL snap l →
      ∀ (a : String) (da : Nat), l.head? = some a → lookE dist a = some (some da) →
      ∀ t, l.getLast? = some t → ∃ dt, lookE dist t = some (some dt) ∧ dt ≤ da + n := by
  obtain ⟨hB, hP, hF⟩ := hInv
  intro l n hp
  induction hp with
  | single v =>
    intro hhf a da hhead hda t hlast
    simp only [List.head?_cons, Option.some.injEq] at hhead
    simp only [List.getLast?_singleton, Option.some.injEq] at hlast
    subst hhead
    subst hlast
    exact ⟨da, hda, Nat.le_add_right _ _⟩
  | cons he hp ih =>
    rename_i a2 b w n2 l2
    intro hhf a da hhead hda t hlast
    simp only [List.head?_cons, Option.some.injEq] at hhead
    subst hhead
    have hhaz_a : nodeIsHazardous a2 snap = false := hhf a2 (by simp)
    have hhaz_b : nodeIsHazardous b snap = false := hhf b (by simp)
    have hadjm : adjMem (buildAdjacency fd snap) a2 b w := by
      rcases he with he | he
      · exact (adj_complete fd snap hWF a2 b w he hhaz_a hhaz_b).1
      · exact (adj_complete fd snap hWF b a2 w he hhaz_b hhaz_a).2
    rcases hF a2 da hda hhaz_a with h1 | h2
    · cases h1
    · obtain ⟨db, hdb, hdble⟩ := h2 b w hadjm hhaz_b
      have hlast2 : (b :: l2).getLast? = some t := by
        rw [List.getLast?_cons_cons] at hlast
        exact hlast
      obtain ⟨dt, hdt, hdtle⟩ := ih (fun x hx => hhf x (by simp [hx])) b db rfl hdb t hlast2
      refine ⟨dt, hdt, ?_⟩
      omega

theorem prevGet_start (fd : FloorDef) (snap : Snap) (s : String)
    (adj : List (String × List (String × Nat)))
    (dist : List (String × Option Nat)) (prev : List (String × Option String))
    (hB : InvB fd snap s adj dist prev) : prevGet prev s = none := by
  unfold prevGet
  cases h : lookE prev s with
  | none => rfl
  | some o =>
    have := hB.prevStart o h
    subst this
    rfl

/-- Reconstruction of the predecessor chain: from any finite node, mkPathAux
with sufficient fuel produces a hazard-free simple path from the start whose
weight is at most the recorded distance. -/
theorem final_chain (fd : FloorDef) (snap : Snap) (s : String)
    (adj : List (String × List (String × Nat)))
    (dist : List (String × Option Nat)) (prev : List (String × Option String))
    (hWF : WF fd) (hadj : adj = buildAdjacency fd snap)
    (hB : InvB fd snap s adj dist prev) :
    ∀ (dv : Nat) (v : String), lookE dist v = some (some dv) →
      ∃ l n, l ≠ [] ∧ l.head? = some s ∧ l.getLast? = some v ∧ PathW fd l n ∧ n ≤ dv ∧
        hazFreeL snap l ∧ l.Nodup ∧
        (∀ x ∈ l, ∃ dx, lookE dist x = some (some dx) ∧ dx ≤ dv) ∧
        (∀ fuel acc, l.length ≤ fuel + 1 → mkPathAux fuel prev v acc = l ++ acc) := by
  intro dv
  induction dv using Nat.strong_induction_on with
  | _ dv ih =>
    intro v hv
    by_cases hvs : v = s
    · subst hvs
      refine ⟨[v], 0, by simp, rfl, rfl, PathW.single v, Nat.zero_le _, ?_, by simp, ?_, ?_⟩
      · intro x hx
        rw [List.mem_singleton] at hx
        subst hx
        exact hB.finHaz _ dv hv
      · intro x hx
        rw [List.mem_singleton] at hx
        subst hx
        exact ⟨dv, hv, le_refl _⟩
      · intro fuel acc hfuel
        cases fuel with
        | zero => rfl
        | succ f =>
          unfold mkPathAux
          rw [prevGet_start fd snap _ adj dist prev hB]
          rfl
    · rcases hB.finOrigin v dv hv with hvs2 | ⟨u, hu⟩
      · exact absurd hvs2 hvs
      · obtain ⟨du, dv2, w, hdu, hdv2, hw1, hadjm, hle⟩ := hB.chain v u hu
        rw [hv] at hdv2
        injection hdv2 with hdv3
        injection hdv3 with hdv4
        subst hdv4
        have hdult : du < dv := by omega
        obtain ⟨lu, nu, hlu_ne, hlu_head, hlu_last, hlu_path, hlu_wle, hlu_haz, hlu_nd,
          hlu_mem, hlu_aux⟩ := ih du hdult u hdu
        have hvnotin : v ∉ lu := by
          intro hcon
          obtain ⟨dx, hdx, hdxle⟩ := hlu_mem v hcon
          rw [hv] at hdx
          injection hdx with hdx2
          injection hdx2 with hdx3
          omega
        have hedge : edgeW fd u v w := by
          rw [hadj] at hadjm
          exact (adj_sound fd snap u v w hadjm).1
        refine ⟨lu ++ [v], nu + w, by simp, ?_, ?_, ?_, ?_, ?_, ?_, ?_, ?_⟩
        · cases lu with
          | nil => exact absurd rfl hlu_ne
          | cons a t => simpa using hlu_head
        · exact List.getLast?_concat _
        · exact PathW_append fd hlu_path hlu_last hedge
        · omega
        · intro x hx
          rcases List.mem_append.mp hx with hx | hx
          · exact hlu_haz x hx
          · rw [List.mem_singleton] at hx
            subst hx
            exact hB.finHaz x dv hv
        · rw [List.nodup_append]
          refine ⟨hlu_nd, by simp, ?_⟩
          intro a ha hb
          simp only [List.mem_singleton] at hb
          subst hb
          exact hvnotin ha
        · intro x hx
          rcases List.mem_append.mp hx with hx | hx
          · obtain ⟨dx, hdx, hdxle⟩ := hlu_mem x hx
            exact ⟨dx, hdx, by omega⟩
          · rw [List.mem_singleton] at hx
            subst hx
            exact ⟨dv, hv, le_refl _⟩
        · intro fuel acc hfuel
          rw [List.length_append, List.length_singleton] at hfuel
          cases fuel with
          | zero =>
            exfalso
            have : lu.length = 0 := by omega
            exact hlu_ne (List.length_eq_zero.mp this)
          | succ f =>
            unfold mkPathAux
            have hpg : prevGet prev v = some u := by
              unfold prevGet
              rw [hu]
            rw [hpg]
            show mkPathAux f prev u (v :: acc) = (lu ++ [v]) ++ acc
            rw [hlu_aux f (v :: acc) (by omega)]
            simp

/-- mkPath applied to a finite node of the final state: the default fuel
covers the chain, whose distinct nodes all carry dist keys. -/
theorem final_mkPath (fd : FloorDef) (snap : Snap) (s : String)
    (dist : List (String × Option Nat)) (prev : List (String × Option String)) (hWF : WF fd)
    (hInv : LoopInv fd snap s (buildAdjacency fd snap) dist prev []) :
    ∀ (dv : Nat) (v : String), lookE dist v = some (some dv) →
      ∃ n, mkPath prev v ≠ [] ∧ (mkPath prev v).head? = some s ∧
        (mkPath prev v).getLast? = some v ∧ PathW fd (mkPath prev v) n ∧ n ≤ dv ∧
        hazFreeL snap (mkPath prev v) ∧ (mkPath prev v).Nodup := by
  intro dv v hv
  obtain ⟨hB, _, _⟩ := hInv
  obtain ⟨l, n, hne, hhead, hlast, hPW, hnle, hhaz, hnd, hmem, haux⟩ :=
    final_chain fd snap s (buildAdjacency fd snap) dist prev hWF rfl hB dv v hv
  have hlen1 : l.length ≤ dist.length := by
    have := nodup_subset_length hnd (dist.map Prod.fst) ?_
    · rw [List.length_map] at this
      exact this
    · intro x hx
      obtain ⟨dx, hdx, _⟩ := hmem x hx
      exact lookE_isSome_mem dist x (by rw [hdx]; rfl)
  have hlen2 : dist.length ≤ prev.length + 1 := by
    have := nodup_subset_length hB.distNodup (s :: prev.map Prod.fst) ?_
    · rw [List.length_map, List.length_cons] at this
      simpa using this
    · intro x hx
      have hx2 : (lookE dist x).isSome = true := mem_lookE_isSome dist x hx
      rcases (hB.distKeys x).mp hx2 with h | h
      · exact List.mem_cons_of_mem s
          (lookE_isSome_mem prev x ((hB.prevKeys x).mpr h))
      · subst h
        exact List.mem_cons_self _ _
  have hmk : mkPath prev v = l := by
    unfold mkPath
    rw [haux (prev.length + 1) [] (by omega)]
    simp
  rw [hmk]
  exact ⟨n, hne, hhead, hlast, hPW, hnle, hhaz, hnd⟩

theorem mem_of_intermediate {l : List String} {x : String}
    (hx : x ∈ (l.drop 1).dropLast) : x ∈ l :=
  (l.drop_sublist 1).subset ((l.drop 1).dropLast_sublist.subset hx)

/-- The hazardous-start case makes exit selection fail. -/
theorem selectBest_haz_none (fd : FloorDef) (snap : Snap) (s : String)
    (hb : nodeIsHazardous s snap = true) :
    selectBest fd.exits snap (dijkstra fd s snap).1 (dijkstra fd s snap).2 = none := by
  rw [selectBest_none_iff]
  intro e he
  right
  intro d hcon
  rw [dijkstra_haz fd snap s hb] at hcon
  simp only at hcon
  rw [lookE_initDist, if_pos (mem_allIds_of_exit fd e he)] at hcon
  injection hcon with hcon2
  cases hcon2

/-- A successful exit selection forces the start to be passable. -/
theorem pass_of_selectBest_some (fd : FloorDef) (snap : Snap) (s : String) (r : Route)
    (hsel : selectBest fd.exits snap (dijkstra fd s snap).1 (dijkstra fd s snap).2 = some r) :
    nodeIsHazardous s snap = false := by
  cases hb : nodeIsHazardous s snap
  · rfl
  · exfalso
    rw [selectBest_haz_none fd snap s hb] at hsel
    cases hsel

/-- On a well-formed floor the Layer 3 verification always passes: findRoute
returns exactly what exit selection produced. -/
theorem findRoute_some_of_selectBest (fd : FloorDef) (snap : Snap) (s : String) (b : Route)
    (hWF : WF fd) (hs : s ≠ "")
    (hsel : selectBest fd.exits snap (dijkstra fd s snap).1 (dijkstra fd s snap).2 = some b) :
    findRoute fd (some s) snap = some b := by
  have hpass := pass_of_selectBest_some fd snap s b hsel
  have hInv := dijkstra_inv fd snap s hWF hpass
  obtain ⟨hopen, hlookup, hpath⟩ := selectBest_resultOk snap _ _ fd.exits b hsel
  obtain ⟨n, _, _, _, _, _, hhaz, _⟩ :=
    final_mkPath fd snap s (dijkstra fd s snap).1 (dijkstra fd s snap).2 hWF hInv b.d
      b.exitId hlookup
  simp only [findRoute]
  rw [if_neg hs, hsel]
  dsimp only
  rw [if_pos ?hcond]
  case hcond =>
    rw [List.all_eq_true]
    intro x hx
    have hxm : x ∈ b.path := mem_of_intermediate hx
    rw [hpath] at hxm
    have := hhaz x hxm
    simp [this]

theorem selectBest_mem (snap : Snap) (dist : List (String × Option Nat))
    (prev : List (String × Option String)) (exits : List String) (r : Route)
    (h : selectBest exits snap dist prev = some r) : r.exitId ∈ exits := by
  rcases selectFold_split snap dist prev exits none r h with hc | ⟨l1, l2, hs, _, _, _, _⟩
  · cases hc
  · rw [hs]
    simp

/-- C9: on well-formed floors (declared endpoints, positive weights), every
returned Route Result is a well-formed simple path: it starts at the selected
position, ends at the chosen exit, follows declared edges, repeats no node,
and its reported distance is the sum of the traversed edge weights; all its
nodes are passable. -/
theorem claim_C9 (fd : FloorDef) (pos : Option String) (snap : Snap) (r : Route)
    (hWF : WF fd) (h : findRoute fd pos snap = some r) :
    ∃ s, pos = some s ∧ r.path.head? = some s ∧ r.path.getLast? = some r.exitId ∧
      r.path.Nodup ∧ PathW fd r.path r.d ∧ hazFreeL snap r.path := by
  obtain ⟨s, hpos, hs0, hsel, hver⟩ := findRoute_some_inv fd pos snap r h
  have hpass := pass_of_selectBest_some fd snap s r hsel
  have hInv := dijkstra_inv fd snap s hWF hpass
  obtain ⟨hopen, hlookup, hpath⟩ := selectBest_resultOk snap _ _ fd.exits r hsel
  obtain ⟨n, hne, hhead, hlast, hPW, hnle, hhaz, hnd⟩ :=
    final_mkPath fd snap s (dijkstra fd s snap).1 (dijkstra fd s snap).2 hWF hInv r.d
      r.exitId hlookup
  have hB0 : InvB fd snap s (buildAdjacency fd snap) (dijkstra fd s snap).1
      (dijkstra fd s snap).2 := hInv.1
  obtain ⟨dt, hdt, hdtle⟩ := final_upperBound fd snap s _ _ hWF hInv (mkPath _ r.exitId) n
    hPW hhaz s 0 hhead hB0.distStart r.exitId hlast
  rw [hlookup] at hdt
  injection hdt with hdt2
  injection hdt2 with hdt3
  have hneq : n = r.d := by omega
  rw [hpath]
  exact ⟨s, hpos, hhead, hlast, hnd, hneq ▸ hPW, hhaz⟩

/-- Witness for C9 on a concrete well-formed floor and route. -/
theorem claim_C9_witness :
    WF lineFloor ∧
    findRoute lineFloor (some "a") [] = some ⟨"x", 2, ["a", "m", "x"]⟩ ∧
    (∃ s, (some "a" : Option String) = some s ∧
      (["a", "m", "x"] : List String).head? = some s ∧
      (["a", "m", "x"] : List String).getLast? = some "x" ∧
      (["a", "m", "x"] : List String).Nodup ∧ PathW lineFloor ["a", "m", "x"] 2 ∧
      hazFreeL [] ["a", "m", "x"]) := by
  have hWF : WF lineFloor := by unfold WF; decide
  have h : findRoute lineFloor (some "a") [] = some ⟨"x", 2, ["a", "m", "x"]⟩ := by
    simp [findRoute, dijkstra, dijkstraLoop, extractMin, staleB, relaxOne, selectBest, selectStep,
      mkPath, mkPathAux, prevGet, buildAdjacency, addEdge, initAdj, initDist, initPrev, pushAdj,
      setE, lookE, delE, snapGet, nodeIsHazardous, ROOM_HAZARD_TYPES, allIds, ltInf, lineFloor]
  exact ⟨hWF, h, claim_C9 lineFloor (some "a") [] ⟨"x", 2, ["a", "m", "x"]⟩ hWF h⟩

/-- C2: on well-formed floors with a passable start, the returned distance is
the minimum weight over all hazard-free paths from the start to the chosen
exit (attained by some such path), and no open exit admits any hazard-free
path of smaller weight. -/
theorem claim_C2 (fd : FloorDef) (s : String) (snap : Snap) (r : Route) (hWF : WF fd)
    (hpass : nodeIsHazardous s snap = false)
    (h : findRoute fd (some s) snap = some r) :
    (∃ l, IsPath fd snap l s r.exitId r.d) ∧
    (∀ l n, IsPath fd snap l s r.exitId n → r.d ≤ n) ∧
    (∀ e ∈ fd.exits, snapGet snap e ≠ "exit-blocked" →
      ∀ l n, IsPath fd snap l s e n → r.d ≤ n) := by
  obtain ⟨sx, hpos, hs0, hsel, hver⟩ := findRoute_some_inv fd (some s) snap r h
  injection hpos with hpos
  subst hpos
  have hInv := dijkstra_inv fd snap s hWF hpass
  have hB0 : InvB fd snap s (buildAdjacency fd snap) (dijkstra fd s snap).1
      (dijkstra fd s snap).2 := hInv.1
  obtain ⟨hopen, hlookup, hpath⟩ := selectBest_resultOk snap _ _ fd.exits r hsel
  have hmin : ∀ e ∈ fd.exits, snapGet snap e ≠ "exit-blocked" →
      ∀ l n, IsPath fd snap l s e n → r.d ≤ n := by
    intro e he heopen l n hp
    obtain ⟨hPW, hhead, hlast, hhaz⟩ := hp
    obtain ⟨dt, hdt, hdtle⟩ := final_upperBound fd snap s _ _ hWF hInv l n hPW hhaz s 0
      hhead hB0.distStart e hlast
    have := selectFold_min snap _ _ fd.exits none r hsel e he heopen dt hdt
    omega
  refine ⟨?_, ?_, hmin⟩
  · obtain ⟨n, hne, hhead, hlast, hPW, hnle, hhaz, hnd⟩ :=
      final_mkPath fd snap s (dijkstra fd s snap).1 (dijkstra fd s snap).2 hWF hInv r.d
        r.exitId hlookup
    have hge : r.d ≤ n :=
      hmin r.exitId (selectBest_mem snap _ _ fd.exits r hsel) hopen _ n
        ⟨hPW, hhead, hlast, hhaz⟩
    have hneq : n = r.d := by omega
    exact ⟨mkPath (dijkstra fd s snap).2 r.exitId, hneq ▸ hPW, hhead, hlast, hhaz⟩
  · exact fun l n hp => hmin r.exitId (selectBest_mem snap _ _ fd.exits r hsel) hopen l n hp

/-- Witness for C2 at a concrete floor, snapshot and start. -/
theorem claim_C2_witness :
    WF lineFloor ∧ nodeIsHazardous "a" [] = false ∧
    findRoute lineFloor (some "a") [] = some ⟨"x", 2, ["a", "m", "x"]⟩ ∧
    ((∃ l, IsPath lineFloor [] l "a" "x" 2) ∧
      (∀ l n, IsPath lineFloor [] l "a" "x" n → 2 ≤ n) ∧
      (∀ e ∈ lineFloor.exits, snapGet [] e ≠ "exit-blocked" →
        ∀ l n, IsPath lineFloor [] l "a" e n → 2 ≤ n)) := by
  have hWF : WF lineFloor := by unfold WF; decide
  have hpass : nodeIsHazardous "a" [] = false := by decide
  have h : findRoute lineFloor (some "a") [] = some ⟨"x", 2, ["a", "m", "x"]⟩ := by
    simp [findRoute, dijkstra, dijkstraLoop, extractMin, staleB, relaxOne, selectBest, selectStep,
      mkPath, mkPathAux, prevGet, buildAdjacency, addEdge, initAdj, initDist, initPrev, pushAdj,
      setE, lookE, delE, snapGet, nodeIsHazardous, ROOM_HAZARD_TYPES, allIds, ltInf, lineFloor]
  exact ⟨hWF, hpass, h, claim_C2 lineFloor "a" [] ⟨"x", 2, ["a", "m", "x"]⟩ hWF hpass h⟩

/-- Comparison of two recorded distances where a missing key or a stored
none both mean Infinity: the first is at most the second. -/
def distLe (a b : Option (Option Nat)) : Prop :=
  ∀ db, b = some (some db) → ∃ da, a = some (some da) ∧ da ≤ db

theorem snapGet_cons_ne (snap : Snap) (k hk2 x : String) (hx : x ≠ k) :
    snapGet ((k, hk2) :: snap) x = snapGet snap x := by
  unfold snapGet
  have hk : k ≠ x := fun h => hx h.symm
  simp only [lookE, if_neg hk]

theorem haz_cons_ne (snap : Snap) (k hk2 x : String) (hx : x ≠ k) :
    nodeIsHazardous x ((k, hk2) :: snap) = nodeIsHazardous x snap := by
  unfold nodeIsHazardous
  rw [snapGet_cons_ne snap k hk2 x hx]

theorem haz_cons_self (snap : Snap) (k hk2 : String) (hkind : hk2 ∈ ROOM_HAZARD_TYPES) :
    nodeIsHazardous k ((k, hk2) :: snap) = true := by
  unfold nodeIsHazardous snapGet
  simp only [lookE, if_pos rfl, Option.getD_some]
  exact List.elem_iff.mpr hkind

theorem haz_mono (snap : Snap) (k hk2 : String) (hnew : lookE snap k = none) (x : String)
    (h : nodeIsHazardous x snap = true) : nodeIsHazardous x ((k, hk2) :: snap) = true := by
  by_cases hx : x = k
  · subst hx
    exfalso
    unfold nodeIsHazardous snapGet at h
    rw [hnew] at h
    simp [ROOM_HAZARD_TYPES] at h
  · rw [haz_cons_ne snap k hk2 x hx]
    exact h

theorem haz_anti (snap : Snap) (k hk2 : String) (hnew : lookE snap k = none) (x : String)
    (h : nodeIsHazardous x ((k, hk2) :: snap) = false) : nodeIsHazardous x snap = false := by
  cases hb : nodeIsHazardous x snap
  · rfl
  · rw [haz_mono snap k hk2 hnew x hb] at h
    cases h

theorem findRoute_empty_pos (fd : FloorDef) (snap : Snap) :
    findRoute fd (some "") snap = none := by
  simp [findRoute]

/-- C5: extending a snapshot by marking one previously clear node with an
impassable kind never decreases any exit's computed distance, and never
turns a no-route outcome into a route. -/
theorem claim_C5 (fd : FloorDef) (st : String) (snap : Snap) (k hk2 : String) (hWF : WF fd)
    (hnew : lookE snap k = none) (hkind : hk2 ∈ ROOM_HAZARD_TYPES) :
    (∀ e ∈ fd.exits, distLe (lookE (dijkstra fd st snap).1 e)
        (lookE (dijkstra fd st ((k, hk2) :: snap)).1 e)) ∧
    (∀ pos, findRoute fd pos snap = none → findRoute fd pos ((k, hk2) :: snap) = none) := by
  have part1 : ∀ s1, ∀ e ∈ fd.exits, distLe (lookE (dijkstra fd s1 snap).1 e)
      (lookE (dijkstra fd s1 ((k, hk2) :: snap)).1 e) := by
    intro s1 e he db hdb
    by_cases hb2 : nodeIsHazardous s1 ((k, hk2) :: snap) = true
    · exfalso
      rw [dijkstra_haz fd _ s1 hb2] at hdb
      simp only at hdb
      rw [lookE_initDist, if_pos (mem_allIds_of_exit fd e he)] at hdb
      injection hdb with hdb2
      cases hdb2
    · have hpass2 : nodeIsHazardous s1 ((k, hk2) :: snap) = false := by
        cases hb : nodeIsHazardous s1 ((k, hk2) :: snap)
        · rfl
        · exact absurd hb hb2
      have hpass1 : nodeIsHazardous s1 snap = false := haz_anti snap k hk2 hnew s1 hpass2
      have hInv2 := dijkstra_inv fd ((k, hk2) :: snap) s1 hWF hpass2
      have hInv1 := dijkstra_inv fd snap s1 hWF hpass1
      obtain ⟨l, n, hne, hhead, hlast, hPW, hnle, hhaz2, hnd, hmem, haux⟩ :=
        final_chain fd ((k, hk2) :: snap) s1 (buildAdjacency fd ((k, hk2) :: snap))
          (dijkstra fd s1 ((k, hk2) :: snap)).1 (dijkstra fd s1 ((k, hk2) :: snap)).2 hWF rfl
          hInv2.1 db e hdb
      have hhaz1 : hazFreeL snap l := fun x hx => haz_anti snap k hk2 hnew x (hhaz2 x hx)
      obtain ⟨dt, hdt, hdtle⟩ := final_upperBound fd snap s1 _ _ hWF hInv1 l n hPW hhaz1 s1 0
        hhead hInv1.1.distStart e hlast
      exact ⟨dt, hdt, by omega⟩
  refine ⟨part1 st, ?_⟩
  intro pos hnone
  cases pos with
  | none => rfl
  | some s2 =>
    by_cases hs2 : s2 = ""
    · subst hs2
      exact findRoute_empty_pos fd ((k, hk2) :: snap)
    · by_cases hb2 : nodeIsHazardous s2 ((k, hk2) :: snap) = true
      · exact findRoute_none_of_hazStart fd ((k, hk2) :: snap) s2 hb2
      · have hpass2 : nodeIsHazardous s2 ((k, hk2) :: snap) = false := by
          cases hb : nodeIsHazardous s2 ((k, hk2) :: snap)
          · rfl
          · exact absurd hb hb2
        have hpass1 : nodeIsHazardous s2 snap = false := haz_anti snap k hk2 hnew s2 hpass2
        have hInv2 := dijkstra_inv fd ((k, hk2) :: snap) s2 hWF hpass2
        have hsel1 : selectBest fd.exits snap (dijkstra fd s2 snap).1
            (dijkstra fd s2 snap).2 = none := by
          cases hsel : selectBest fd.exits snap (dijkstra fd s2 snap).1
              (dijkstra fd s2 snap).2 with
          | none => rfl
          | some b =>
            exfalso
            rw [findRoute_some_of_selectBest fd snap s2 b hWF hs2 hsel] at hnone
            cases hnone
        have hall := (selectBest_none_iff snap _ _ fd.exits).mp hsel1
        apply findRoute_none_of_selectBest_none
        rw [selectBest_none_iff]
        intro e he
        by_cases hek : e = k
        · subst hek
          right
          intro d hcon
          have := hInv2.1.finHaz e d hcon
          rw [haz_cons_self snap e hk2 hkind] at this
          cases this
        · rcases hall e he with hblocked | hinf
          · left
            rw [snapGet_cons_ne snap k hk2 e hek]
            exact hblocked
          · right
            intro d hcon
            obtain ⟨da, hda, _⟩ := part1 s2 e he d hcon
            exact hinf da hda

/-- Witness for C5 at a concrete floor, start, snapshot and added hazard. -/
theorem claim_C5_witness :
    WF lineFloor ∧ lookE ([] : Snap) "m" = none ∧ "blocked" ∈ ROOM_HAZARD_TYPES ∧
    ((∀ e ∈ lineFloor.exits, distLe (lookE (dijkstra lineFloor "a" []).1 e)
        (lookE (dijkstra lineFloor "a" [("m", "blocked")]).1 e)) ∧
      (∀ pos, findRoute lineFloor pos [] = none →
        findRoute lineFloor pos [("m", "blocked")] = none)) := by
  have h1 : WF lineFloor := by unfold WF; decide
  have h2 : lookE ([] : Snap) "m" = none := rfl
  have h3 : "blocked" ∈ ROOM_HAZARD_TYPES := by decide
  exact ⟨h1, h2, h3, claim_C5 lineFloor "a" [] "m" "blocked" h1 h2 h3⟩
